import Mathlib

/-!
Verification of the atom store of `jotai-clone` (the `createAtom` engine in
`src/README.md`, file `jotai.ts`).

The engine is embedded as a small-step machine over an explicit store:

* `JVal` models the JavaScript values the store traffics in (`null` is the
  uninitialized placeholder written by `value = null as AtomType`; numbers
  cover the values the claims exercise; `===` is decidable equality here).
* `Cb` defunctionalizes the two kinds of callbacks in the source: external
  subscriber functions (`recorder k`, where `k` models the function's
  reference identity and notifications are appended to a log), and the
  dependency callback closure created inside `get`
  (`depCb owner cell`, where `cell` is the closure variable `currentValue`).
* `DExp` defunctionalizes derivation functions: they read dependencies via
  the tracking `get` capability (`getD`), combine values, and may throw
  (`failIfNeg`).
* A `Machine` holds the atoms, the closure cells, the notification log, the
  microtask queue (an `async` function suspends at `await` and its
  continuation — reset value, assign, notify — runs as a microtask), and the
  pending slots of derivations awaiting an external promise.

JavaScript's single-threaded event loop is modelled by running external
operations synchronously and draining the microtask queue between them;
`resolveP` models an external promise resolving (or rejecting).  Cascading
recomputation (`computeValue` → notify → dependency callback →
`computeValue`) is fuelled, since the source could loop on cyclic atoms.
The `passes` field of an atom is ghost instrumentation counting entries into
`computeValue` for that atom; it influences nothing.
-/

namespace JotaiClone

/-- JavaScript values handled by the store: `null` (the placeholder the
source writes as `null as AtomType`) and numbers.  `===` on these is
decidable equality. -/
inductive JVal where
  | null : JVal
  | num : Int → JVal
deriving DecidableEq, Repr

/-- A callback held in an atom's `subscribers` set.  `recorder k` is an
external subscriber function with reference identity `k` (its invocations
are appended to the machine's log); `depCb owner cell` is the closure that
`get` registers on a dependency, with `cell` the index of its captured
`currentValue` variable. -/
inductive Cb where
  | recorder : Nat → Cb
  | depCb : Nat → Nat → Cb
deriving DecidableEq, Repr

/-- Defunctionalized derivation bodies: read a dependency through the
tracking `get` (`getD`), return a literal, add two results, or throw when
the scrutinee is a negative number (`failIfNeg`), modelling a derivation
function that conditionally throws/rejects. -/
inductive DExp where
  | lit : JVal → DExp
  | getD : Nat → DExp
  | add : DExp → DExp → DExp
  | failIfNeg : DExp → DExp
deriving DecidableEq, Repr

/-- A derivation function: its body and whether it is `async` (awaits an
external promise after its reads). -/
structure Deriv where
  body : DExp
  isAsync : Bool
deriving DecidableEq, Repr

/-- The continuation of `computeValue` after `await`: reset the owner's
value to the placeholder, assign `val`, notify the subscribers. -/
structure MTask where
  owner : Nat
  val : JVal
deriving DecidableEq, Repr

/-- One atom's closure state in `createAtom`: `value`, the `subscribers`
set (insertion-ordered, identity-deduplicated, as a JS `Set`), the
`subscribed` tracking set of dependencies, the optional derivation
(`initialValue` when it is a function), and the ghost pass counter. -/
structure AtomSt where
  value : JVal
  subs : List Cb
  subscribed : List Nat
  deriv : Option Deriv
  passes : Nat
deriving DecidableEq, Repr

instance : Inhabited AtomSt := ⟨⟨JVal.null, [], [], none, 0⟩⟩

/-- The whole store: atoms (ids are list indices), closure cells (the
`currentValue` variables captured by dependency callbacks), the external
notification log, the microtask queue, and pending async derivations
(`some (owner, some v)` resolves to `v`, `some (owner, none)` rejects;
a slot becomes `none` once settled). -/
structure Machine where
  atoms : List AtomSt
  cells : List JVal
  log : List (Nat × JVal)
  micro : List MTask
  pend : List (Option (Nat × Option JVal))
deriving DecidableEq, Repr

def emptyM : Machine := ⟨[], [], [], [], []⟩

def atomAt (m : Machine) (i : Nat) : AtomSt := m.atoms.getD i default

def updAtom (m : Machine) (i : Nat) (f : AtomSt → AtomSt) : Machine :=
  { m with atoms := m.atoms.set i (f (m.atoms.getD i default)) }

def setVal (m : Machine) (i : Nat) (v : JVal) : Machine :=
  updAtom m i fun st => { st with value := v }

def bumpPasses (m : Machine) (i : Nat) : Machine :=
  updAtom m i fun st => { st with passes := st.passes + 1 }

def updCell (m : Machine) (c : Nat) (v : JVal) : Machine :=
  { m with cells := m.cells.set c v }

/-- `Set.add` on callbacks: identity-deduplicating, insertion-ordered. -/
def setAdd (l : List Cb) (c : Cb) : List Cb := if c ∈ l then l else l ++ [c]

/-- The tracking `get` capability of atom `owner` applied to atom `dep`
(source: `function get<T>(a: Atom<T>)`): read the dependency's current
value; on first read record it in `subscribed` and register the dependency
callback (whose captured `currentValue` becomes a fresh cell); return the
value. -/
def doGet (m : Machine) (owner dep : Nat) : Machine × JVal :=
  let v := (atomAt m dep).value
  if dep ∈ (atomAt m owner).subscribed then (m, v)
  else
    let cid := m.cells.length
    let m1 := { m with cells := m.cells ++ [v] }
    let m2 := updAtom m1 owner fun st => { st with subscribed := st.subscribed ++ [dep] }
    let m3 := updAtom m2 dep fun st => { st with subs := setAdd st.subs (Cb.depCb owner cid) }
    (m3, v)

/-- JS `+` on the modelled values. -/
def jadd : JVal → JVal → JVal
  | JVal.num a, JVal.num b => JVal.num (a + b)
  | _, _ => JVal.null

/-- Run a derivation body for atom `owner`: side effects are the `get`
reads; the result is `none` when the body throws. -/
def runDeriv (owner : Nat) : Machine → DExp → Machine × Option JVal
  | m, DExp.lit v => (m, some v)
  | m, DExp.getD a =>
    match doGet m owner a with
    | (m1, v) => (m1, some v)
  | m, DExp.add e1 e2 =>
    match runDeriv owner m e1 with
    | (m1, none) => (m1, none)
    | (m1, some v1) =>
      match runDeriv owner m1 e2 with
      | (m2, none) => (m2, none)
      | (m2, some v2) => (m2, some (jadd v1 v2))
  | m, DExp.failIfNeg e =>
    match runDeriv owner m e with
    | (m1, none) => (m1, none)
    | (m1, some (JVal.num n)) =>
      if n < 0 then (m1, none) else (m1, some (JVal.num n))
    | (m1, some v) => (m1, some v)

/-- Run one callback with the notified value `v` (`cv` is `computeValue` at
the remaining fuel).  The dependency callback is the closure in `get`:
`if (currentValue === newValue) return; currentValue = newValue;
void computeValue();`. -/
def runCbG (cv : Machine → Nat → Machine) (m : Machine) (cb : Cb) (v : JVal) : Machine :=
  match cb with
  | Cb.recorder k => { m with log := m.log ++ [(k, v)] }
  | Cb.depCb owner cell =>
    if m.cells.getD cell JVal.null = v then m
    else cv (updCell m cell v) owner

/-- `subscribers.forEach((callback) => callback(value))` over a snapshot of
the set. -/
def notifyGo (cv : Machine → Nat → Machine) : Machine → List Cb → JVal → Machine
  | m, [], _ => m
  | m, cb :: rest, v => notifyGo cv (runCbG cv m cb v) rest v

/-- `computeValue` for atom `owner`.  A primitive atom (derivation absent)
runs synchronously: `newValue = value; value = null; value = newValue;`
then notifies.  A derived atom runs its reads now; a synchronous derivation
that returns suspends at `await`, so its commit (reset, assign, notify) is
enqueued as a microtask; a synchronous throw skips the commit; an `async`
derivation parks on a pending promise slot.  Fuel bounds the notification
cascade. -/
def computeValue : Nat → Machine → Nat → Machine
  | 0, m, _ => m
  | fuel + 1, m, owner =>
    match m.atoms.get? owner with
    | none => m
    | some st =>
      let m0 := bumpPasses m owner
      match st.deriv with
      | none =>
        let v := st.value
        let m1 := setVal (setVal m0 owner JVal.null) owner v
        notifyGo (computeValue fuel) m1 (atomAt m1 owner).subs v
      | some d =>
        match runDeriv owner m0 d.body with
        | (m1, r) =>
          if d.isAsync then { m1 with pend := m1.pend ++ [some (owner, r)] }
          else
            match r with
            | none => m1
            | some v => { m1 with micro := m1.micro ++ [⟨owner, v⟩] }

/-- Run a commit microtask: `value = null; value = newValue;` then notify
the owner's subscribers with the new value. -/
def runTask (cv : Machine → Nat → Machine) (m : Machine) (t : MTask) : Machine :=
  let m1 := setVal (setVal m t.owner JVal.null) t.owner t.val
  notifyGo cv m1 (atomAt m1 t.owner).subs t.val

/-- Drain the microtask queue (the event loop between external operations). -/
def drain : Nat → Machine → Machine
  | 0, m => m
  | fuel + 1, m =>
    match m.micro with
    | [] => m
    | t :: rest => drain fuel (runTask (computeValue fuel) { m with micro := rest } t)

/-- `set: (newValue) => { value = newValue; void computeValue(); }`. -/
def setA (fuel : Nat) (m : Machine) (i : Nat) (v : JVal) : Machine :=
  computeValue fuel (setVal m i v) i

/-- `subscribe: (callback) => { subscribers.add(callback); ... }`. -/
def subscribeA (m : Machine) (i : Nat) (cb : Cb) : Machine :=
  updAtom m i fun st => { st with subs := setAdd st.subs cb }

/-- The unsubscribe closure returned by `subscribe`:
`subscribers.delete(callback)`. -/
def unsubscribeA (m : Machine) (i : Nat) (cb : Cb) : Machine :=
  updAtom m i fun st => { st with subs := st.subs.erase cb }

/-- `createAtom` on a non-callable initial value: `value = initialValue`,
then the construction-time `void computeValue();`. -/
def createAtomP (fuel : Nat) (m : Machine) (v : JVal) : Machine :=
  computeValue fuel { m with atoms := m.atoms ++ [⟨v, [], [], none, 0⟩] } m.atoms.length

/-- `createAtom` on a callable initial value: `value = null as AtomType`,
then the construction-time `void computeValue();`. -/
def createAtomD (fuel : Nat) (m : Machine) (d : Deriv) : Machine :=
  computeValue fuel { m with atoms := m.atoms ++ [⟨JVal.null, [], [], some d, 0⟩] } m.atoms.length

/-- `cloneAtom(atom) = createAtom(atom.get())`. -/
def cloneA (fuel : Nat) (m : Machine) (i : Nat) : Machine :=
  createAtomP fuel m (atomAt m i).value

/-- An external promise awaited by an async derivation settles: a resolve
enqueues the suspended commit as a microtask, a rejection is swallowed
(`void computeValue()` ignores the rejected promise). -/
def resolveP (m : Machine) (j : Nat) : Machine :=
  match m.pend.getD j none with
  | some (owner, some v) =>
    { m with pend := m.pend.set j none, micro := m.micro ++ [⟨owner, v⟩] }
  | some (_, none) => { m with pend := m.pend.set j none }
  | none => m

/-- External operations a consumer can perform; external subscribers are
always `recorder` callbacks (consumers only hold their own functions and
the unsubscribe closures for them). -/
inductive Op where
  | createP : JVal → Op
  | createD : Deriv → Op
  | setOp : Nat → JVal → Op
  | subOp : Nat → Nat → Op
  | unsubOp : Nat → Nat → Op
  | cloneOp : Nat → Op
  | resolveOp : Nat → Op
deriving DecidableEq, Repr

/-- Run one external operation, then let the event loop drain microtasks. -/
def runOp (fuel : Nat) (m : Machine) : Op → Machine
  | Op.createP v => drain fuel (createAtomP fuel m v)
  | Op.createD d => drain fuel (createAtomD fuel m d)
  | Op.setOp i v => drain fuel (setA fuel m i v)
  | Op.subOp i k => subscribeA m i (Cb.recorder k)
  | Op.unsubOp i k => unsubscribeA m i (Cb.recorder k)
  | Op.cloneOp i => drain fuel (cloneA fuel m i)
  | Op.resolveOp j => drain fuel (resolveP m j)

def runOps (fuel : Nat) : Machine → List Op → Machine
  | m, [] => m
  | m, op :: rest => runOps fuel (runOp fuel m op) rest

/-- Number of dependency-callback subscriptions owned by atom `o` in a
subscriber list. -/
def isDepOf (o : Nat) : Cb → Bool
  | Cb.depCb o' _ => o' == o
  | _ => false

def countD (o : Nat) (l : List Cb) : Nat := (l.filter (isDepOf o)).length

/-- Atoms read by a derivation body, in read order. -/
def readsOf : DExp → List Nat
  | DExp.lit _ => []
  | DExp.getD a => [a]
  | DExp.add e1 e2 => readsOf e1 ++ readsOf e2
  | DExp.failIfNeg e => readsOf e

/-- Canonical linked pair: primitive atom `0` (current value `a`) whose
subscriber set holds the dependency callback of derived atom `1`, with
closure cell `0` holding the dependency value `w0` the derived atom last
observed; derived atom `1` is `createAtom((get) => get(P))` (synchronous),
has current value `b`, external subscribers `ks`, and has already tracked
atom `0` in its `subscribed` set.  This is exactly the machine reached
after constructing both atoms and subscribing `ks`. -/
def linkedPD (a b w0 : JVal) (L : List (Nat × JVal)) (ks : List Nat) (p1 p2 : Nat) : Machine :=
  ⟨[⟨a, [Cb.depCb 1 0], [], none, p1⟩,
    ⟨b, ks.map Cb.recorder, [0], some ⟨DExp.getD 0, false⟩, p2⟩],
   [w0], L, [], []⟩

/-- Well-formed internal references: every dependency callback, microtask
and pending promise names an existing atom. -/
def wfRefs (m : Machine) : Prop :=
  (∀ d o c, Cb.depCb o c ∈ (atomAt m d).subs → o < m.atoms.length) ∧
  (∀ t ∈ m.micro, t.owner < m.atoms.length) ∧
  (∀ s ∈ m.pend, ∀ p ∈ s, p.1 < m.atoms.length)

/-- The dependency-tracking invariant: every atom holds at most one
dependency callback per owning atom, and a registered dependency callback
is matched by a `subscribed` entry of its owner. -/
def depInv (m : Machine) : Prop :=
  ∀ d o, countD o (atomAt m d).subs ≤ 1 ∧
    (1 ≤ countD o (atomAt m d).subs → d ∈ (atomAt m o).subscribed)

def GInv (m : Machine) : Prop := wfRefs m ∧ depInv m

/-- Atom `i` is quiescent: no dependency callback owned by `i` is registered
anywhere, and no microtask or pending promise targets `i`, so no activity on
other atoms can trigger a recomputation of `i`. -/
def Prot (i : Nat) (m : Machine) : Prop :=
  i < m.atoms.length ∧
  (∀ d c, Cb.depCb i c ∉ (atomAt m d).subs) ∧
  (∀ t ∈ m.micro, t.owner ≠ i) ∧
  (∀ s ∈ m.pend, ∀ p ∈ s, p.1 ≠ i)

/-- The observation of atom `i` that activity on other atoms must preserve:
value, pass count, derivation, tracking set (the subscriber list may grow
when another atom starts reading `i`). -/
def coreAt (m : Machine) (i : Nat) : JVal × Nat × Option Deriv × List Nat :=
  ((atomAt m i).value, (atomAt m i).passes, (atomAt m i).deriv, (atomAt m i).subscribed)

/-- Whether an external operation is a write to atom `i`. -/
def writesTo (i : Nat) : Op → Bool
  | Op.setOp j _ => j == i
  | _ => false

/-- What a derivation run leaves untouched: atom count, log, microtasks,
pending promises, and every atom's value, pass count and derivation. -/
def framePres (m m' : Machine) : Prop :=
  m'.atoms.length = m.atoms.length ∧
  m'.log = m.log ∧ m'.micro = m.micro ∧ m'.pend = m.pend ∧
  ∀ j, (atomAt m' j).value = (atomAt m j).value ∧
    (atomAt m' j).passes = (atomAt m j).passes ∧
    (atomAt m' j).deriv = (atomAt m j).deriv

/-- C3 scenario: one primitive atom, the same external callback subscribed
twice, one of the two unsubscribe closures invoked, then a write. -/
def sc3ops : List Op :=
  [Op.createP (JVal.num 0), Op.subOp 0 7, Op.subOp 0 7, Op.unsubOp 0 7,
   Op.setOp 0 (JVal.num 5)]

/-- C5 scenario: an async derived atom over a primitive dependency; the
first derivation resolves (committing `1`), then a write to the dependency
starts a second recomputation whose suspension window we observe. -/
def sc5ops : List Op :=
  [Op.createP (JVal.num 1), Op.createD ⟨DExp.getD 0, true⟩, Op.resolveOp 0,
   Op.setOp 0 (JVal.num 5)]

/-- C6 scenario: a derived atom whose derivation throws when the dependency
is negative; it first commits `5`, then a write of `-1` makes the
recomputation pass fail. -/
def sc6ops : List Op :=
  [Op.createP (JVal.num 5), Op.createD ⟨DExp.failIfNeg (DExp.getD 0), false⟩,
   Op.subOp 1 3, Op.setOp 0 (JVal.num (-1))]

/-- Witness machine: a primitive atom `0` with two external subscribers. -/
def w2m : Machine := runOps 4 emptyM [Op.createP (JVal.num 0), Op.subOp 0 1, Op.subOp 0 2]

/-- Witness machine: an async derived atom `1` over primitive atom `0`,
still inside its first suspension window. -/
def w5m : Machine := runOps 8 emptyM [Op.createP (JVal.num 1), Op.createD ⟨DExp.getD 0, true⟩]

/-- Witness machine: a derived atom `1` whose derivation throws on the
current (negative) value of its dependency `0`. -/
def w6m : Machine :=
  runOps 8 emptyM [Op.createP (JVal.num (-1)), Op.createD ⟨DExp.failIfNeg (DExp.getD 0), false⟩]

/-- Witness machine: a synchronous derived atom `1 = get(0) + 10` with one
external subscriber. -/
def w10m : Machine := runOps 8 emptyM
  [Op.createP (JVal.num 2), Op.createD ⟨DExp.add (DExp.getD 0) (DExp.lit (JVal.num 10)), false⟩,
   Op.subOp 1 0]

/-! ## Basic store lemmas -/

theorem updAtom_le (m : Machine) (i : Nat) (f : AtomSt → AtomSt)
    (h : m.atoms.length ≤ i) : updAtom m i f = m := by
  simp [updAtom, List.set_eq_of_length_le h]

theorem atoms_length_updAtom (m : Machine) (i : Nat) (f : AtomSt → AtomSt) :
    (updAtom m i f).atoms.length = m.atoms.length := by
  simp [updAtom]

theorem updAtom_cells (m : Machine) (i : Nat) (f : AtomSt → AtomSt) :
    (updAtom m i f).cells = m.cells := rfl

theorem updAtom_log (m : Machine) (i : Nat) (f : AtomSt → AtomSt) :
    (updAtom m i f).log = m.log := rfl

theorem updAtom_micro (m : Machine) (i : Nat) (f : AtomSt → AtomSt) :
    (updAtom m i f).micro = m.micro := rfl

theorem updAtom_pend (m : Machine) (i : Nat) (f : AtomSt → AtomSt) :
    (updAtom m i f).pend = m.pend := rfl

theorem atomAt_updAtom_self (m : Machine) (i : Nat) (f : AtomSt → AtomSt)
    (h : i < m.atoms.length) : atomAt (updAtom m i f) i = f (atomAt m i) := by
  simp [atomAt, updAtom, List.getD, List.getElem?_set_self, h]

theorem atomAt_updAtom_ne (m : Machine) (i j : Nat) (f : AtomSt → AtomSt)
    (h : i ≠ j) : atomAt (updAtom m j f) i = atomAt m i := by
  simp [atomAt, updAtom, List.getD, List.getElem?_set_ne h.symm]

theorem atomAt_field_updAtom {α : Type} (φ : AtomSt → α) (m : Machine) (i j : Nat)
    (f : AtomSt → AtomSt) (hf : ∀ st, φ (f st) = φ st) :
    φ (atomAt (updAtom m j f) i) = φ (atomAt m i) := by
  by_cases h : i = j
  · subst h
    by_cases h2 : i < m.atoms.length
    · rw [atomAt_updAtom_self m i f h2, hf]
    · rw [updAtom_le m i f (Nat.le_of_not_lt h2)]
  · rw [atomAt_updAtom_ne m i j f h]

theorem get?_atomAt (m : Machine) (i : Nat) (h : i < m.atoms.length) :
    m.atoms.get? i = some (atomAt m i) := by
  simp [atomAt, List.getD, List.get?_eq_getElem?, List.getElem?_eq_getElem h]

theorem updAtom_updAtom (m : Machine) (i : Nat) (f g : AtomSt → AtomSt) :
    updAtom (updAtom m i f) i g = updAtom m i (fun st => g (f st)) := by
  by_cases h : i < m.atoms.length
  · simp [updAtom, List.getD, List.getElem?_set_self, h, List.set_set]
  · have h' : m.atoms.length ≤ i := Nat.le_of_not_lt h
    rw [updAtom_le m i f h', updAtom_le m i g h', updAtom_le m i _ h']

theorem updAtom_congr (m : Machine) (i : Nat) (f g : AtomSt → AtomSt)
    (h : f (atomAt m i) = g (atomAt m i)) : updAtom m i f = updAtom m i g := by
  unfold updAtom
  rw [show f (m.atoms.getD i default) = g (m.atoms.getD i default) from h]

theorem setAdd_idem (l : List Cb) (c : Cb) : setAdd (setAdd l c) c = setAdd l c := by
  by_cases h : c ∈ l
  · simp [setAdd, h]
  · simp [setAdd, h]

theorem notifyGo_recorders (cv : Machine → Nat → Machine) (ks : List Nat) (m : Machine)
    (v : JVal) :
    notifyGo cv m (ks.map Cb.recorder) v =
      { m with log := m.log ++ ks.map (fun k => (k, v)) } := by
  induction ks generalizing m with
  | nil => simp [notifyGo]
  | cons k ks ih => simp [notifyGo, runCbG, ih]

theorem drain_micro_nil (fuel : Nat) (m : Machine) (h : m.micro = []) :
    drain fuel m = m := by
  cases fuel with
  | zero => rfl
  | succ f =>
    unfold drain
    rw [h]

theorem drain_cons (fuel : Nat) (m : Machine) (t : MTask) (rest : List MTask)
    (h : m.micro = t :: rest) :
    drain (fuel + 1) m =
      drain fuel (runTask (computeValue fuel) { m with micro := rest } t) := by
  conv_lhs => unfold drain
  rw [h]

/-! ## Characterizations of one `computeValue` pass -/

theorem computeValue_primitive (fuel : Nat) (m : Machine) (i : Nat)
    (hlen : i < m.atoms.length) (hprim : (atomAt m i).deriv = none) :
    computeValue (fuel + 1) m i =
      notifyGo (computeValue fuel)
        (updAtom m i (fun st => { st with value := (atomAt m i).value, passes := st.passes + 1 }))
        (atomAt m i).subs (atomAt m i).value := by
  conv_lhs => unfold computeValue
  rw [get?_atomAt m i hlen]
  simp only [hprim]
  have hm1 : setVal (setVal (bumpPasses m i) i JVal.null) i (atomAt m i).value =
      updAtom m i (fun st => { st with value := (atomAt m i).value, passes := st.passes + 1 }) := by
    unfold setVal bumpPasses
    rw [updAtom_updAtom, updAtom_updAtom]
  rw [hm1]
  congr 1
  exact atomAt_field_updAtom (fun st => st.subs) m i i
    (fun st => { st with value := (atomAt m i).value, passes := st.passes + 1 })
    (fun st => rfl)

theorem computeValue_derived (fuel : Nat) (m : Machine) (i : Nat) (d : Deriv)
    (hlen : i < m.atoms.length) (hder : (atomAt m i).deriv = some d) :
    computeValue (fuel + 1) m i =
      (if d.isAsync then
        { (runDeriv i (bumpPasses m i) d.body).1 with
          pend := (runDeriv i (bumpPasses m i) d.body).1.pend ++
            [some (i, (runDeriv i (bumpPasses m i) d.body).2)] }
      else
        match (runDeriv i (bumpPasses m i) d.body).2 with
        | none => (runDeriv i (bumpPasses m i) d.body).1
        | some v => { (runDeriv i (bumpPasses m i) d.body).1 with
            micro := (runDeriv i (bumpPasses m i) d.body).1.micro ++ [⟨i, v⟩] }) := by
  conv_lhs => unfold computeValue
  rw [get?_atomAt m i hlen]
  simp only [hder]

/-! ## Frame lemmas for derivation runs -/

theorem framePres_refl (m : Machine) : framePres m m :=
  ⟨rfl, rfl, rfl, rfl, fun _ => ⟨rfl, rfl, rfl⟩⟩

theorem framePres_trans {m1 m2 m3 : Machine} (h1 : framePres m1 m2)
    (h2 : framePres m2 m3) : framePres m1 m3 := by
  obtain ⟨a1, b1, c1, d1, e1⟩ := h1
  obtain ⟨a2, b2, c2, d2, e2⟩ := h2
  refine ⟨a2.trans a1, b2.trans b1, c2.trans c1, d2.trans d1, fun j => ?_⟩
  obtain ⟨x1, y1, z1⟩ := e1 j
  obtain ⟨x2, y2, z2⟩ := e2 j
  exact ⟨x2.trans x1, y2.trans y1, z2.trans z1⟩

theorem doGet_framePres (m : Machine) (o a : Nat) : framePres m (doGet m o a).1 := by
  unfold doGet
  split
  · exact framePres_refl m
  · dsimp only
    refine ⟨?_, rfl, rfl, rfl, fun j => ?_⟩
    · simp [atoms_length_updAtom]
    · refine ⟨?_, ?_, ?_⟩
      · rw [atomAt_field_updAtom (fun st => st.value) _ j a
            (fun st => { st with subs := setAdd st.subs (Cb.depCb o m.cells.length) })
            (fun st => rfl),
          atomAt_field_updAtom (fun st => st.value) _ j o
            (fun st => { st with subscribed := st.subscribed ++ [a] }) (fun st => rfl)]
        rfl
      · rw [atomAt_field_updAtom (fun st => st.passes) _ j a
            (fun st => { st with subs := setAdd st.subs (Cb.depCb o m.cells.length) })
            (fun st => rfl),
          atomAt_field_updAtom (fun st => st.passes) _ j o
            (fun st => { st with subscribed := st.subscribed ++ [a] }) (fun st => rfl)]
        rfl
      · rw [atomAt_field_updAtom (fun st => st.deriv) _ j a
            (fun st => { st with subs := setAdd st.subs (Cb.depCb o m.cells.length) })
            (fun st => rfl),
          atomAt_field_updAtom (fun st => st.deriv) _ j o
            (fun st => { st with subscribed := st.subscribed ++ [a] }) (fun st => rfl)]
        rfl

theorem runDeriv_framePres (o : Nat) (e : DExp) (m : Machine) :
    framePres m (runDeriv o m e).1 := by
  induction e generalizing m with
  | lit v => exact framePres_refl m
  | getD a => exact doGet_framePres m o a
  | add e1 e2 ih1 ih2 =>
    rcases h1 : runDeriv o m e1 with ⟨m1, r1⟩
    have hf1 : framePres m m1 := by
      have := ih1 m
      rw [h1] at this
      exact this
    rcases r1 with _ | v1
    · simpa [runDeriv, h1] using hf1
    · rcases h2 : runDeriv o m1 e2 with ⟨m2, r2⟩
      have hf2 : framePres m1 m2 := by
        have := ih2 m1
        rw [h2] at this
        exact this
      rcases r2 with _ | v2
      · simpa [runDeriv, h1, h2] using framePres_trans hf1 hf2
      · simpa [runDeriv, h1, h2] using framePres_trans hf1 hf2
  | failIfNeg e ih =>
    rcases h1 : runDeriv o m e with ⟨m1, r1⟩
    have hf1 : framePres m m1 := by
      have := ih m
      rw [h1] at this
      exact this
    rcases r1 with _ | v1
    · simpa [runDeriv, h1] using hf1
    · rcases v1 with _ | n
      · simpa [runDeriv, h1] using hf1
      · by_cases hn : n < 0
        · simpa [runDeriv, h1, hn] using hf1
        · simpa [runDeriv, h1, hn] using hf1

/-- A derivation run only changes the subscriber lists of the atoms it
reads. -/
theorem runDeriv_subs (o : Nat) (e : DExp) (m : Machine) (j : Nat)
    (hj : j ∉ readsOf e) :
    (atomAt (runDeriv o m e).1 j).subs = (atomAt m j).subs := by
  induction e generalizing m with
  | lit v => rfl
  | getD a =>
    have hja : j ≠ a := by simpa [readsOf] using hj
    show (atomAt (doGet m o a).1 j).subs = (atomAt m j).subs
    unfold doGet
    split
    · rfl
    · dsimp only
      rw [atomAt_updAtom_ne _ j a _ hja,
        atomAt_field_updAtom (fun st => st.subs) _ j o
          (fun st => { st with subscribed := st.subscribed ++ [a] }) (fun st => rfl)]
      rfl
  | add e1 e2 ih1 ih2 =>
    have hj1 : j ∉ readsOf e1 := fun hc => hj (by simp [readsOf, hc])
    have hj2 : j ∉ readsOf e2 := fun hc => hj (by simp [readsOf, hc])
    rcases h1 : runDeriv o m e1 with ⟨m1, r1⟩
    have hs1 : (atomAt m1 j).subs = (atomAt m j).subs := by
      have := ih1 m hj1
      rw [h1] at this
      exact this
    rcases r1 with _ | v1
    · simpa [runDeriv, h1] using hs1
    · rcases h2 : runDeriv o m1 e2 with ⟨m2, r2⟩
      have hs2 : (atomAt m2 j).subs = (atomAt m1 j).subs := by
        have := ih2 m1 hj2
        rw [h2] at this
        exact this
      rcases r2 with _ | v2
      · simpa [runDeriv, h1, h2] using hs2.trans hs1
      · simpa [runDeriv, h1, h2] using hs2.trans hs1
  | failIfNeg e ih =>
    have hj1 : j ∉ readsOf e := by simpa [readsOf] using hj
    rcases h1 : runDeriv o m e with ⟨m1, r1⟩
    have hs1 : (atomAt m1 j).subs = (atomAt m j).subs := by
      have := ih m hj1
      rw [h1] at this
      exact this
    rcases r1 with _ | v1
    · simpa [runDeriv, h1] using hs1
    · rcases v1 with _ | n
      · simpa [runDeriv, h1] using hs1
      · by_cases hn : n < 0
        · simpa [runDeriv, h1, hn] using hs1
        · simpa [runDeriv, h1, hn] using hs1

/-! ## The write path on a primitive atom with external subscribers -/

/-- `set` on a primitive atom whose subscribers are the external callbacks
`ks`: the value is assigned, the pass counter bumps, and the whole
notification round appends one log entry per subscriber, in order. -/
theorem setA_primitive (fuel : Nat) (m : Machine) (i : Nat) (ks : List Nat) (v : JVal)
    (hlen : i < m.atoms.length)
    (hprim : (atomAt m i).deriv = none)
    (hsubs : (atomAt m i).subs = ks.map Cb.recorder) :
    setA (fuel + 1) m i v =
      { updAtom m i (fun st => { st with value := v, passes := st.passes + 1 }) with
        log := m.log ++ ks.map (fun k => (k, v)) } := by
  have hlen1 : i < (setVal m i v).atoms.length := by
    unfold setVal
    rw [atoms_length_updAtom]
    exact hlen
  have hat : atomAt (setVal m i v) i = { atomAt m i with value := v } := by
    unfold setVal
    rw [atomAt_updAtom_self m i _ hlen]
  unfold setA
  rw [computeValue_primitive fuel (setVal m i v) i hlen1 (by rw [hat]; exact hprim)]
  rw [hat]
  show notifyGo (computeValue fuel)
      (updAtom (setVal m i v) i
        (fun st => { st with value := v, passes := st.passes + 1 }))
      ((atomAt m i).subs) v = _
  rw [hsubs, notifyGo_recorders]
  unfold setVal
  rw [updAtom_updAtom]
  rfl

/-- C2: for a primitive atom with `N` distinct subscribers registered before
a write, `set(x)` delivers exactly one notification carrying `x` to each of
the `N` subscribers, in registration order, on every write — regardless of
whether `x` equals the current value (primitive writes are not
equality-gated). -/
theorem claim2_primitive_notify_all (fuel : Nat) (m : Machine) (i : Nat) (ks : List Nat)
    (v : JVal)
    (hlen : i < m.atoms.length)
    (hprim : (atomAt m i).deriv = none)
    (hsubs : (atomAt m i).subs = ks.map Cb.recorder)
    (hnd : ks.Nodup) :
    (setA (fuel + 1) m i v).log = m.log ++ ks.map (fun k => (k, v)) ∧
    (atomAt (setA (fuel + 1) m i v) i).value = v ∧
    ∀ k ∈ ks, ((ks.map (fun j => (j, v))).filter (fun p => p.1 == k)).length = 1 := by
  rw [setA_primitive fuel m i ks v hlen hprim hsubs]
  refine ⟨rfl, ?_, ?_⟩
  · show (atomAt
        (updAtom m i fun st => { st with value := v, passes := st.passes + 1 }) i).value = v
    rw [atomAt_updAtom_self m i _ hlen]
  · intro k hk
    rw [List.filter_map]
    show (List.map (fun j => (j, v)) (ks.filter fun j => j == k)).length = 1
    rw [List.length_map, ← List.countP_eq_length_filter]
    exact List.count_eq_one_of_mem hnd hk

/-- C9: after invoking the unsubscribe closure returned by `subscribe`,
that callback receives no notification from a subsequent write, while every
other registered subscriber still receives the notification exactly as
before, in order. -/
theorem claim9_unsubscribe_frame (fuel : Nat) (m : Machine) (i : Nat) (ks : List Nat)
    (k : Nat) (v : JVal)
    (hlen : i < m.atoms.length)
    (hprim : (atomAt m i).deriv = none)
    (hsubs : (atomAt m i).subs = ks.map Cb.recorder)
    (hnd : ks.Nodup) :
    (setA (fuel + 1) (unsubscribeA m i (Cb.recorder k)) i v).log =
      m.log ++ (ks.erase k).map (fun j => (j, v)) ∧
    (∀ x, (k, x) ∉ (ks.erase k).map (fun j => (j, v))) := by
  have hinj : Function.Injective Cb.recorder := fun a b hab => by
    injection hab
  have hsubs' : (atomAt (unsubscribeA m i (Cb.recorder k)) i).subs =
      (ks.erase k).map Cb.recorder := by
    unfold unsubscribeA
    rw [atomAt_updAtom_self m i _ hlen]
    show (atomAt m i).subs.erase (Cb.recorder k) = _
    rw [hsubs, ← List.map_erase hinj]
  have hlen' : i < (unsubscribeA m i (Cb.recorder k)).atoms.length := by
    unfold unsubscribeA
    rw [atoms_length_updAtom]
    exact hlen
  have hprim' : (atomAt (unsubscribeA m i (Cb.recorder k)) i).deriv = none := by
    unfold unsubscribeA
    rw [atomAt_updAtom_self m i _ hlen]
    exact hprim
  constructor
  · rw [setA_primitive fuel _ i (ks.erase k) v hlen' hprim' hsubs']
    rfl
  · intro x hx
    rcases List.mem_map.mp hx with ⟨j, hj, hjx⟩
    have hjk : j = k := congrArg Prod.fst hjx
    subst hjk
    exact ((List.Nodup.mem_erase_iff hnd).mp hj).1 rfl

/-- C3 counterexample: subscribing the same callback reference twice, then
invoking one of the two unsubscribe closures, leaves the callback
unregistered — a subsequent write notifies nobody, and the subscriber set
held a single registration after the double subscribe. -/
theorem claim3_counterexample :
    (atomAt (runOps 8 emptyM [Op.createP (JVal.num 0), Op.subOp 0 7, Op.subOp 0 7]) 0).subs
      = [Cb.recorder 7] ∧
    (runOps 8 emptyM sc3ops).log = [] := by
  constructor
  · decide
  · decide

/-- C3 amended: `subscribe` twice with the same callback reference is a
single registration (the second `subscribers.add` is a no-op on the `Set`),
and one invocation of either returned unsubscribe closure removes the
callback entirely. -/
theorem claim3_single_registration (m : Machine) (i : Nat) (cb : Cb)
    (hlen : i < m.atoms.length) (hcb : cb ∉ (atomAt m i).subs) :
    subscribeA (subscribeA m i cb) i cb = subscribeA m i cb ∧
    (atomAt (unsubscribeA (subscribeA (subscribeA m i cb) i cb) i cb) i).subs
      = (atomAt m i).subs := by
  have hdouble : subscribeA (subscribeA m i cb) i cb = subscribeA m i cb := by
    unfold subscribeA
    rw [updAtom_updAtom]
    exact updAtom_congr m i _ _ (by simp [setAdd_idem])
  refine ⟨hdouble, ?_⟩
  rw [hdouble]
  unfold unsubscribeA subscribeA
  rw [updAtom_updAtom, atomAt_updAtom_self m i _ hlen]
  show (setAdd (atomAt m i).subs cb).erase cb = _
  rw [setAdd, if_neg hcb, List.erase_append_right _ hcb]
  simp

/-! ## Suspension windows and failing derivations -/

/-- C5 amended: while a recomputation of an async derived atom is suspended
awaiting its derivation, no atom's value has been touched and nobody has
been notified — so a synchronous read during the window returns the value
from before the pass (which is the uninitialized placeholder only until the
first successful commit, since the reset-to-placeholder happens after the
`await`, not before). -/
theorem claim5_suspension_window (fuel : Nat) (m : Machine) (i : Nat) (body : DExp)
    (hlen : i < m.atoms.length)
    (hder : (atomAt m i).deriv = some ⟨body, true⟩) :
    (∀ j, (atomAt (computeValue (fuel + 1) m i) j).value = (atomAt m j).value) ∧
    (computeValue (fuel + 1) m i).log = m.log ∧
    (computeValue (fuel + 1) m i).pend =
      m.pend ++ [some (i, (runDeriv i (bumpPasses m i) body).2)] := by
  rw [computeValue_derived fuel m i ⟨body, true⟩ hlen hder]
  obtain ⟨hL, hLog, hMic, hPend, hFld⟩ := runDeriv_framePres i body (bumpPasses m i)
  refine ⟨fun j => ?_, ?_, ?_⟩
  · show (atomAt (runDeriv i (bumpPasses m i) body).1 j).value = (atomAt m j).value
    rw [(hFld j).1]
    unfold bumpPasses
    exact atomAt_field_updAtom (fun st => st.value) m j i
      (fun st => { st with passes := st.passes + 1 }) (fun st => rfl)
  · show (runDeriv i (bumpPasses m i) body).1.log = m.log
    rw [hLog]
    rfl
  · show (runDeriv i (bumpPasses m i) body).1.pend ++ _ = m.pend ++ _
    rw [hPend]
    rfl

/-- C5 counterexample: in `sc5ops` the async derived atom first commits the
value `1`; during the suspension window of the second recomputation
(pending slot `1`, still unresolved) its value is the previously committed
`1`, not the uninitialized placeholder. -/
theorem claim5_counterexample :
    (runOps 8 emptyM sc5ops).pend.getD 1 none = some (1, some (JVal.num 5)) ∧
    (atomAt (runOps 8 emptyM sc5ops) 1).value = JVal.num 1 ∧
    JVal.num 1 ≠ JVal.null := by
  refine ⟨by decide, by decide, by decide⟩

/-- C6 amended: a recomputation pass whose derivation throws leaves every
atom's value unchanged (hence the failing atom keeps its previous value —
the uninitialized placeholder only if it never successfully computed),
notifies no subscriber, and schedules no commit. -/
theorem claim6_failed_pass (fuel : Nat) (m : Machine) (i : Nat) (body : DExp)
    (hlen : i < m.atoms.length)
    (hder : (atomAt m i).deriv = some ⟨body, false⟩)
    (hfail : (runDeriv i (bumpPasses m i) body).2 = none) :
    (∀ j, (atomAt (computeValue (fuel + 1) m i) j).value = (atomAt m j).value) ∧
    (computeValue (fuel + 1) m i).log = m.log ∧
    (computeValue (fuel + 1) m i).micro = m.micro := by
  rw [computeValue_derived fuel m i ⟨body, false⟩ hlen hder]
  obtain ⟨hL, hLog, hMic, hPend, hFld⟩ := runDeriv_framePres i body (bumpPasses m i)
  have hred : (if (Deriv.mk body false).isAsync then
      { (runDeriv i (bumpPasses m i) body).1 with
        pend := (runDeriv i (bumpPasses m i) body).1.pend ++
          [some (i, (runDeriv i (bumpPasses m i) body).2)] }
    else
      match (runDeriv i (bumpPasses m i) body).2 with
      | none => (runDeriv i (bumpPasses m i) body).1
      | some v => { (runDeriv i (bumpPasses m i) body).1 with
          micro := (runDeriv i (bumpPasses m i) body).1.micro ++ [⟨i, v⟩] }) =
      (runDeriv i (bumpPasses m i) body).1 := by
    rw [if_neg (by simp)]
    rw [hfail]
  rw [hred]
  refine ⟨fun j => ?_, ?_, ?_⟩
  · rw [(hFld j).1]
    unfold bumpPasses
    exact atomAt_field_updAtom (fun st => st.value) m j i
      (fun st => { st with passes := st.passes + 1 }) (fun st => rfl)
  · rw [hLog]
    rfl
  · rw [hMic]
    rfl

/-- C6 counterexample: in `sc6ops` the derived atom first commits `5`; then
the failing pass (pass counter `2`) leaves its value at `5` — not the
placeholder — and its subscriber hears nothing. -/
theorem claim6_counterexample :
    (atomAt (runOps 8 emptyM sc6ops) 1).value = JVal.num 5 ∧
    (atomAt (runOps 8 emptyM sc6ops) 1).passes = 2 ∧
    JVal.num 5 ≠ JVal.null ∧
    (runOps 8 emptyM sc6ops).log = [] := by
  refine ⟨by decide, by decide, by decide, by decide⟩

/-! ## The write path on a derived atom -/

theorem runTask_recorders (cv : Machine → Nat → Machine) (m : Machine) (t : MTask)
    (ks : List Nat)
    (hsubs : (atomAt m t.owner).subs = ks.map Cb.recorder) :
    runTask cv m t =
      { setVal (setVal m t.owner JVal.null) t.owner t.val with
        log := m.log ++ ks.map (fun k => (k, t.val)) } := by
  unfold runTask
  show notifyGo cv (setVal (setVal m t.owner JVal.null) t.owner t.val)
    (atomAt (setVal (setVal m t.owner JVal.null) t.owner t.val) t.owner).subs t.val = _
  have hs : (atomAt (setVal (setVal m t.owner JVal.null) t.owner t.val) t.owner).subs
      = ks.map Cb.recorder := by
    unfold setVal
    rw [atomAt_field_updAtom (fun st => st.subs) _ t.owner t.owner
        (fun st => { st with value := t.val }) (fun st => rfl),
      atomAt_field_updAtom (fun st => st.subs) _ t.owner t.owner
        (fun st => { st with value := JVal.null }) (fun st => rfl)]
    exact hsubs
  rw [hs, notifyGo_recorders]
  rfl

/-- C10: `set(x)` on a derived atom assigns `x` only transiently: the
recomputation pass launched by `set` re-runs the derivation, and when the
derivation resolves (here: `rv`), the commit overwrites `x` with `rv` and
the subscribers notified by that pass receive `rv`, not `x`. -/
theorem claim10_derived_set_transient (fuel fuel2 : Nat) (m : Machine) (i : Nat)
    (body : DExp) (ks : List Nat) (x rv : JVal)
    (hlen : i < m.atoms.length)
    (hder : (atomAt m i).deriv = some ⟨body, false⟩)
    (hsubs : (atomAt m i).subs = ks.map Cb.recorder)
    (hmicro : m.micro = [])
    (hself : i ∉ readsOf body)
    (hrun : (runDeriv i (bumpPasses (setVal m i x) i) body).2 = some rv) :
    (atomAt (setA (fuel + 1) m i x) i).value = x ∧
    (setA (fuel + 1) m i x).micro = [⟨i, rv⟩] ∧
    (atomAt (drain (fuel2 + 1) (setA (fuel + 1) m i x)) i).value = rv ∧
    (drain (fuel2 + 1) (setA (fuel + 1) m i x)).log =
      m.log ++ ks.map (fun k => (k, rv)) := by
  have hlen' : i < (setVal m i x).atoms.length := by
    unfold setVal
    rw [atoms_length_updAtom]
    exact hlen
  have hat' : atomAt (setVal m i x) i = { atomAt m i with value := x } := by
    unfold setVal
    rw [atomAt_updAtom_self m i _ hlen]
  have hder' : (atomAt (setVal m i x) i).deriv = some ⟨body, false⟩ := by
    rw [hat']
    exact hder
  obtain ⟨hL, hLog, hMic, hPend, hFld⟩ :=
    runDeriv_framePres i body (bumpPasses (setVal m i x) i)
  have hsetA : setA (fuel + 1) m i x =
      { (runDeriv i (bumpPasses (setVal m i x) i) body).1 with
        micro := (runDeriv i (bumpPasses (setVal m i x) i) body).1.micro ++ [⟨i, rv⟩] } := by
    unfold setA
    rw [computeValue_derived fuel (setVal m i x) i ⟨body, false⟩ hlen' hder']
    rw [if_neg (by simp)]
    rw [hrun]
  have hvalx : (atomAt (setA (fuel + 1) m i x) i).value = x := by
    rw [hsetA]
    show (atomAt (runDeriv i (bumpPasses (setVal m i x) i) body).1 i).value = x
    rw [(hFld i).1]
    unfold bumpPasses
    rw [atomAt_field_updAtom (fun st => st.value) (setVal m i x) i i
      (fun st => { st with passes := st.passes + 1 }) (fun st => rfl)]
    rw [hat']
  have hmicMS : (setA (fuel + 1) m i x).micro = [⟨i, rv⟩] := by
    rw [hsetA]
    show (runDeriv i (bumpPasses (setVal m i x) i) body).1.micro ++ [⟨i, rv⟩] = [⟨i, rv⟩]
    rw [hMic]
    show m.micro ++ [⟨i, rv⟩] = [⟨i, rv⟩]
    rw [hmicro]
    rfl
  have hsubsMS : (atomAt (setA (fuel + 1) m i x) i).subs = ks.map Cb.recorder := by
    rw [hsetA]
    show (atomAt (runDeriv i (bumpPasses (setVal m i x) i) body).1 i).subs = _
    rw [runDeriv_subs i body (bumpPasses (setVal m i x) i) i hself]
    unfold bumpPasses
    rw [atomAt_field_updAtom (fun st => st.subs) (setVal m i x) i i
      (fun st => { st with passes := st.passes + 1 }) (fun st => rfl)]
    rw [hat']
    exact hsubs
  have hlenMS : i < (setA (fuel + 1) m i x).atoms.length := by
    rw [hsetA]
    show i < (runDeriv i (bumpPasses (setVal m i x) i) body).1.atoms.length
    rw [hL]
    unfold bumpPasses
    rw [atoms_length_updAtom]
    exact hlen'
  have hlogMS : (setA (fuel + 1) m i x).log = m.log := by
    rw [hsetA]
    show (runDeriv i (bumpPasses (setVal m i x) i) body).1.log = m.log
    rw [hLog]
    rfl
  have hsubs2 : (atomAt { (setA (fuel + 1) m i x) with micro := [] }
      (MTask.mk i rv).owner).subs = ks.map Cb.recorder := hsubsMS
  have hdr : drain (fuel2 + 1) (setA (fuel + 1) m i x) =
      { setVal (setVal { (setA (fuel + 1) m i x) with micro := [] } i JVal.null) i rv with
        log := (setA (fuel + 1) m i x).log ++ ks.map (fun k => (k, rv)) } := by
    rw [drain_cons fuel2 _ ⟨i, rv⟩ [] hmicMS]
    rw [runTask_recorders (computeValue fuel2) _ ⟨i, rv⟩ ks hsubs2]
    apply drain_micro_nil
    rfl
  have hvfinal : (atomAt (drain (fuel2 + 1) (setA (fuel + 1) m i x)) i).value = rv := by
    rw [hdr]
    show (atomAt (setVal (setVal { (setA (fuel + 1) m i x) with micro := [] } i JVal.null)
      i rv) i).value = rv
    have hlenMS2 : i < ({ (setA (fuel + 1) m i x) with micro := ([] : List MTask) }).atoms.length :=
      hlenMS
    unfold setVal
    rw [updAtom_updAtom, atomAt_updAtom_self _ i _ hlenMS2]
  have hlfinal : (drain (fuel2 + 1) (setA (fuel + 1) m i x)).log =
      m.log ++ ks.map (fun k => (k, rv)) := by
    rw [hdr]
    show (setA (fuel + 1) m i x).log ++ ks.map (fun k => (k, rv)) = _
    rw [hlogMS]
  exact ⟨hvalx, hmicMS, hvfinal, hlfinal⟩

/-! ## Dependency propagation through the equality gate -/

/-- C1: in the canonical linked pair (derived atom `1` reading primitive
atom `0` through the tracking `get`), writing a value to the primitive that
differs (`===`) from the value the derived atom previously observed
(closure cell `0`, holding `w0`) triggers a fresh recomputation of the
derived atom — its pass counter bumps, its value becomes the new dependency
value once the derivation resolves, and its subscribers are notified —
whereas writing a value equal to the observed one short-circuits: the
derived atom is neither recomputed (pass counter unchanged) nor are its
subscribers notified (log unchanged). -/
theorem claim1_dependency_equality_gate (fuel : Nat) (a b w0 w : JVal)
    (L : List (Nat × JVal)) (ks : List Nat) (p1 p2 : Nat) :
    (w0 ≠ w →
      drain (fuel + 1) (setA (fuel + 1 + 1) (linkedPD a b w0 L ks p1 p2) 0 w) =
        ⟨[⟨w, [Cb.depCb 1 0], [], none, p1 + 1⟩,
          ⟨w, ks.map Cb.recorder, [0], some ⟨DExp.getD 0, false⟩, p2 + 1⟩],
         [w], L ++ ks.map (fun k => (k, w)), [], []⟩) ∧
    (w0 = w →
      drain (fuel + 1) (setA (fuel + 1 + 1) (linkedPD a b w0 L ks p1 p2) 0 w) =
        ⟨[⟨w, [Cb.depCb 1 0], [], none, p1 + 1⟩,
          ⟨b, ks.map Cb.recorder, [0], some ⟨DExp.getD 0, false⟩, p2⟩],
         [w0], L, [], []⟩) := by
  have h1 : setA (fuel + 1 + 1) (linkedPD a b w0 L ks p1 p2) 0 w =
      (if w0 = w then
        (⟨[⟨w, [Cb.depCb 1 0], [], none, p1 + 1⟩,
           ⟨b, ks.map Cb.recorder, [0], some ⟨DExp.getD 0, false⟩, p2⟩],
          [w0], L, [], []⟩ : Machine)
      else computeValue (fuel + 1)
        (⟨[⟨w, [Cb.depCb 1 0], [], none, p1 + 1⟩,
           ⟨b, ks.map Cb.recorder, [0], some ⟨DExp.getD 0, false⟩, p2⟩],
          [w], L, [], []⟩ : Machine) 1) := rfl
  constructor
  · intro hne
    have h2 : computeValue (fuel + 1)
        (⟨[⟨w, [Cb.depCb 1 0], [], none, p1 + 1⟩,
           ⟨b, ks.map Cb.recorder, [0], some ⟨DExp.getD 0, false⟩, p2⟩],
          [w], L, [], []⟩ : Machine) 1 =
        (⟨[⟨w, [Cb.depCb 1 0], [], none, p1 + 1⟩,
           ⟨b, ks.map Cb.recorder, [0], some ⟨DExp.getD 0, false⟩, p2 + 1⟩],
          [w], L, [⟨1, w⟩], []⟩ : Machine) := rfl
    rw [h1, if_neg hne, h2]
    calc
      drain (fuel + 1)
          (⟨[⟨w, [Cb.depCb 1 0], [], none, p1 + 1⟩,
             ⟨b, ks.map Cb.recorder, [0], some ⟨DExp.getD 0, false⟩, p2 + 1⟩],
            [w], L, [⟨1, w⟩], []⟩ : Machine)
        = drain fuel (runTask (computeValue fuel)
            (⟨[⟨w, [Cb.depCb 1 0], [], none, p1 + 1⟩,
               ⟨b, ks.map Cb.recorder, [0], some ⟨DExp.getD 0, false⟩, p2 + 1⟩],
              [w], L, [], []⟩ : Machine) ⟨1, w⟩) :=
          drain_cons fuel _ ⟨1, w⟩ [] rfl
      _ = drain fuel
            { setVal (setVal
                (⟨[⟨w, [Cb.depCb 1 0], [], none, p1 + 1⟩,
                   ⟨b, ks.map Cb.recorder, [0], some ⟨DExp.getD 0, false⟩, p2 + 1⟩],
                  [w], L, [], []⟩ : Machine) 1 JVal.null) 1 w with
              log := L ++ ks.map (fun k => (k, w)) } := by
          rw [runTask_recorders (computeValue fuel)
            (⟨[⟨w, [Cb.depCb 1 0], [], none, p1 + 1⟩,
               ⟨b, ks.map Cb.recorder, [0], some ⟨DExp.getD 0, false⟩, p2 + 1⟩],
              [w], L, [], []⟩ : Machine) ⟨1, w⟩ ks rfl]
      _ = ⟨[⟨w, [Cb.depCb 1 0], [], none, p1 + 1⟩,
            ⟨w, ks.map Cb.recorder, [0], some ⟨DExp.getD 0, false⟩, p2 + 1⟩],
           [w], L ++ ks.map (fun k => (k, w)), [], []⟩ :=
          drain_micro_nil fuel _ rfl
  · intro heq
    rw [h1, if_pos heq, drain_micro_nil (fuel + 1) _ rfl]

/-! ## The dependency-tracking invariant (`subscribed` prevents duplicate
subscriptions) -/

theorem atomAt_append_lt (m : Machine) (st : AtomSt) (i : Nat) (h : i < m.atoms.length) :
    atomAt { m with atoms := m.atoms ++ [st] } i = atomAt m i := by
  simp [atomAt, List.getD, List.getElem?_append_left h]

theorem atomAt_append_self (m : Machine) (st : AtomSt) :
    atomAt { m with atoms := m.atoms ++ [st] } m.atoms.length = st := by
  simp [atomAt, List.getD, List.getElem?_concat_length]

theorem atomAt_ge (m : Machine) (i : Nat) (h : m.atoms.length ≤ i) :
    atomAt m i = default := by
  simp [atomAt, List.getD, List.getElem?_eq_none h]

theorem countD_append (o : Nat) (l1 l2 : List Cb) :
    countD o (l1 ++ l2) = countD o l1 + countD o l2 := by
  simp [countD, List.filter_append]

theorem countD_recorder (o k : Nat) : countD o [Cb.recorder k] = 0 := rfl

theorem countD_depCb (o o' c : Nat) :
    countD o [Cb.depCb o' c] = if o' = o then 1 else 0 := by
  by_cases h : o' = o
  · subst h
    simp [countD, isDepOf]
  · have hb : (o' == o) = false := beq_eq_false_iff_ne.mpr h
    simp [countD, isDepOf, hb, h]

theorem countD_erase_le (o : Nat) (l : List Cb) (c : Cb) :
    countD o (l.erase c) ≤ countD o l :=
  ((List.erase_sublist c l).filter (isDepOf o)).length_le

theorem countD_pos (o : Nat) (l : List Cb) (h : 1 ≤ countD o l) :
    ∃ c, Cb.depCb o c ∈ l := by
  have hne : l.filter (isDepOf o) ≠ [] := by
    intro hc
    unfold countD at h
    rw [hc] at h
    simp at h
  rcases List.exists_mem_of_ne_nil _ hne with ⟨x, hx⟩
  have hmem := (List.mem_filter.mp hx).1
  have hdep := (List.mem_filter.mp hx).2
  cases x with
  | recorder k => simp [isDepOf] at hdep
  | depCb o' c =>
    have : o' = o := by simpa [isDepOf] using hdep
    subst this
    exact ⟨c, hmem⟩

theorem mem_setAdd (l : List Cb) (c x : Cb) (h : x ∈ setAdd l c) : x ∈ l ∨ x = c := by
  unfold setAdd at h
  split at h
  · exact Or.inl h
  · rcases List.mem_append.mp h with h | h
    · exact Or.inl h
    · simp at h
      exact Or.inr h

theorem countD_setAdd_recorder (o : Nat) (l : List Cb) (k : Nat) :
    countD o (setAdd l (Cb.recorder k)) = countD o l := by
  unfold setAdd
  split
  · rfl
  · rw [countD_append, countD_recorder]
    rw [Nat.add_zero]

theorem countD_setAdd_depCb_ne (o o' c : Nat) (l : List Cb) (h : o' ≠ o) :
    countD o (setAdd l (Cb.depCb o' c)) = countD o l := by
  unfold setAdd
  split
  · rfl
  · rw [countD_append, countD_depCb, if_neg h]
    rw [Nat.add_zero]

theorem countD_setAdd_le_succ (o c : Nat) (l : List Cb) :
    countD o (setAdd l (Cb.depCb o c)) ≤ countD o l + 1 := by
  unfold setAdd
  split
  · exact Nat.le_succ_of_le (Nat.le_refl _)
  · rw [countD_append, countD_depCb, if_pos rfl]

theorem ginv_empty : GInv emptyM := by
  refine ⟨⟨?_, ?_, ?_⟩, ?_⟩
  · intro d o c hmem
    exact absurd hmem (List.not_mem_nil _)
  · intro t ht
    exact absurd ht (List.not_mem_nil _)
  · intro s hs
    exact absurd hs (List.not_mem_nil _)
  · intro d o
    constructor
    · show countD o ([] : List Cb) ≤ 1
      exact Nat.zero_le 1
    · intro hc
      have hc0 : (1 : Nat) ≤ 0 := hc
      omega

theorem ginv_updAtom_inert (m : Machine) (i : Nat) (f : AtomSt → AtomSt)
    (hsubs : ∀ st, (f st).subs = st.subs)
    (hsubd : ∀ st, (f st).subscribed = st.subscribed)
    (h : GInv m) : GInv (updAtom m i f) := by
  obtain ⟨⟨h1, h2, h3⟩, hdep⟩ := h
  refine ⟨⟨?_, ?_, ?_⟩, ?_⟩
  · intro d o c hmem
    rw [atomAt_field_updAtom (fun st => st.subs) m d i f hsubs] at hmem
    rw [atoms_length_updAtom]
    exact h1 d o c hmem
  · intro t ht
    rw [atoms_length_updAtom]
    exact h2 t ht
  · intro s hs
    rw [atoms_length_updAtom]
    exact h3 s hs
  · intro d o
    constructor
    · rw [show (atomAt (updAtom m i f) d).subs = (atomAt m d).subs from
        atomAt_field_updAtom (fun st => st.subs) m d i f hsubs]
      exact (hdep d o).1
    · rw [show (atomAt (updAtom m i f) d).subs = (atomAt m d).subs from
        atomAt_field_updAtom (fun st => st.subs) m d i f hsubs,
        show (atomAt (updAtom m i f) o).subscribed = (atomAt m o).subscribed from
        atomAt_field_updAtom (fun st => st.subscribed) m o i f hsubd]
      exact (hdep d o).2

theorem ginv_doGet (m : Machine) (o a : Nat) (ho : o < m.atoms.length)
    (h : GInv m) : GInv (doGet m o a).1 := by
  unfold doGet
  split
  · exact h
  · rename_i hnotin
    dsimp only
    obtain ⟨⟨h1, h2, h3⟩, hdep⟩ := h
    -- notation: m2 adds `a` to the tracking set of `o`; m3 registers the
    -- dependency callback on `a`.
    have hsubs2 : ∀ d, (atomAt (updAtom { m with cells := m.cells ++ [(atomAt m a).value] } o
        fun st => { st with subscribed := st.subscribed ++ [a] }) d).subs
        = (atomAt m d).subs := by
      intro d
      rw [atomAt_field_updAtom (fun st => st.subs) _ d o
        (fun st => { st with subscribed := st.subscribed ++ [a] }) (fun st => rfl)]
      rfl
    have hsubd2 : ∀ j, j ≠ o → (atomAt (updAtom { m with cells := m.cells ++ [(atomAt m a).value] } o
        fun st => { st with subscribed := st.subscribed ++ [a] }) j).subscribed
        = (atomAt m j).subscribed := by
      intro j hj
      rw [atomAt_updAtom_ne _ j o _ hj]
      rfl
    have hsubdo : (atomAt (updAtom { m with cells := m.cells ++ [(atomAt m a).value] } o
        fun st => { st with subscribed := st.subscribed ++ [a] }) o).subscribed
        = (atomAt m o).subscribed ++ [a] := by
      have ho' : o < ({ m with cells := m.cells ++ [(atomAt m a).value] } : Machine).atoms.length := ho
      rw [atomAt_updAtom_self _ o _ ho']
      rfl
    refine ⟨⟨?_, ?_, ?_⟩, ?_⟩
    · intro d o' c hmem
      rw [atoms_length_updAtom, atoms_length_updAtom]
      show o' < m.atoms.length
      by_cases hda : d = a
      · subst hda
        by_cases hlt : d < m.atoms.length
        · rw [atomAt_updAtom_self _ d _ (by rw [atoms_length_updAtom]; exact hlt)] at hmem
          rcases mem_setAdd _ _ _ (by simpa using hmem) with hmm | hmm
          · rw [hsubs2 d] at hmm
            exact h1 d o' c hmm
          · cases hmm
            exact ho
        · rw [updAtom_le _ d _ (by rw [atoms_length_updAtom]; exact Nat.le_of_not_lt hlt)] at hmem
          rw [hsubs2 d] at hmem
          exact h1 d o' c hmem
      · rw [atomAt_updAtom_ne _ d a _ hda, hsubs2 d] at hmem
        exact h1 d o' c hmem
    · intro t ht
      rw [atoms_length_updAtom, atoms_length_updAtom]
      exact h2 t ht
    · intro s hs
      rw [atoms_length_updAtom, atoms_length_updAtom]
      exact h3 s hs
    · intro d o'
      have hget : ∀ j, (atomAt (updAtom (updAtom { m with cells := m.cells ++ [(atomAt m a).value] } o
          fun st => { st with subscribed := st.subscribed ++ [a] }) a
          fun st => { st with subs := setAdd st.subs (Cb.depCb o m.cells.length) }) j).subscribed
          = (atomAt (updAtom { m with cells := m.cells ++ [(atomAt m a).value] } o
          fun st => { st with subscribed := st.subscribed ++ [a] }) j).subscribed := by
        intro j
        exact atomAt_field_updAtom (fun st => st.subscribed) _ j a
          (fun st => { st with subs := setAdd st.subs (Cb.depCb o m.cells.length) })
          (fun st => rfl)
      have hsubscr_mono : ∀ j x, x ∈ (atomAt m j).subscribed →
          x ∈ (atomAt (updAtom { m with cells := m.cells ++ [(atomAt m a).value] } o
          fun st => { st with subscribed := st.subscribed ++ [a] }) j).subscribed := by
        intro j x hx
        by_cases hj : j = o
        · subst hj
          rw [hsubdo]
          exact List.mem_append_left _ hx
        · rw [hsubd2 j hj]
          exact hx
      by_cases hda : d = a
      · subst hda
        by_cases hlt : d < m.atoms.length
        · have hsubs3 : (atomAt (updAtom (updAtom { m with cells := m.cells ++ [(atomAt m d).value] } o
              fun st => { st with subscribed := st.subscribed ++ [d] }) d
              fun st => { st with subs := setAdd st.subs (Cb.depCb o m.cells.length) }) d).subs
              = setAdd (atomAt m d).subs (Cb.depCb o m.cells.length) := by
            rw [atomAt_updAtom_self _ d _ (by rw [atoms_length_updAtom]; exact hlt)]
            show setAdd (atomAt (updAtom { m with cells := m.cells ++ [(atomAt m d).value] } o
              fun st => { st with subscribed := st.subscribed ++ [d] }) d).subs _ = _
            rw [hsubs2 d]
          rw [hsubs3, hget]
          by_cases hoo : o' = o
          · subst hoo
            have hcnt0 : countD o' (atomAt m d).subs = 0 := by
              by_contra hc
              have : 1 ≤ countD o' (atomAt m d).subs := Nat.one_le_iff_ne_zero.mpr hc
              exact hnotin ((hdep d o').2 this)
            constructor
            · calc countD o' (setAdd (atomAt m d).subs (Cb.depCb o' m.cells.length))
                  ≤ countD o' (atomAt m d).subs + 1 := countD_setAdd_le_succ o' m.cells.length _
                _ = 1 := by rw [hcnt0]
            · intro _
              rw [hsubdo]
              exact List.mem_append_right _ (by simp)
          · rw [countD_setAdd_depCb_ne o' o m.cells.length _ (fun hc => hoo hc.symm)]
            refine ⟨(hdep d o').1, fun hc => hsubscr_mono o' d ((hdep d o').2 hc)⟩
        · have hle : m.atoms.length ≤ d := Nat.le_of_not_lt hlt
          rw [updAtom_le _ d _ (by rw [atoms_length_updAtom]; exact hle)]
          rw [hsubs2 d]
          refine ⟨(hdep d o').1, fun hc => hsubscr_mono o' d ((hdep d o').2 hc)⟩
      · rw [atomAt_updAtom_ne _ d a _ hda, hsubs2 d, hget]
        refine ⟨(hdep d o').1, fun hc => hsubscr_mono o' d ((hdep d o').2 hc)⟩

theorem ginv_runDeriv (o : Nat) (e : DExp) (m : Machine) (ho : o < m.atoms.length)
    (h : GInv m) : GInv (runDeriv o m e).1 := by
  induction e generalizing m with
  | lit v => exact h
  | getD a => exact ginv_doGet m o a ho h
  | add e1 e2 ih1 ih2 =>
    rcases h1 : runDeriv o m e1 with ⟨m1, r1⟩
    have hg1 : GInv m1 := by
      have := ih1 m ho h
      rw [h1] at this
      exact this
    have hlen1 : m1.atoms.length = m.atoms.length := by
      have := (runDeriv_framePres o e1 m).1
      rw [h1] at this
      exact this
    rcases r1 with _ | v1
    · simpa [runDeriv, h1] using hg1
    · rcases h2 : runDeriv o m1 e2 with ⟨m2, r2⟩
      have hg2 : GInv m2 := by
        have := ih2 m1 (by rw [hlen1]; exact ho) hg1
        rw [h2] at this
        exact this
      rcases r2 with _ | v2
      · simpa [runDeriv, h1, h2] using hg2
      · simpa [runDeriv, h1, h2] using hg2
  | failIfNeg e ih =>
    rcases h1 : runDeriv o m e with ⟨m1, r1⟩
    have hg1 : GInv m1 := by
      have := ih m ho h
      rw [h1] at this
      exact this
    rcases r1 with _ | v1
    · simpa [runDeriv, h1] using hg1
    · rcases v1 with _ | n
      · simpa [runDeriv, h1] using hg1
      · by_cases hn : n < 0
        · simpa [runDeriv, h1, hn] using hg1
        · simpa [runDeriv, h1, hn] using hg1

theorem ginv_runCbG (cv : Machine → Nat → Machine)
    (hcv : ∀ m j, GInv m → GInv (cv m j)) (m : Machine) (cb : Cb) (v : JVal)
    (h : GInv m) : GInv (runCbG cv m cb v) := by
  cases cb with
  | recorder k => exact h
  | depCb o c =>
    show GInv (if m.cells.getD c JVal.null = v then m else cv (updCell m c v) o)
    split
    · exact h
    · exact hcv (updCell m c v) o h

theorem ginv_notifyGo (cv : Machine → Nat → Machine)
    (hcv : ∀ m j, GInv m → GInv (cv m j)) (cbs : List Cb) :
    ∀ (m : Machine) (v : JVal), GInv m → GInv (notifyGo cv m cbs v) := by
  induction cbs with
  | nil => exact fun m v h => h
  | cons cb rest ih =>
    intro m v h
    show GInv (notifyGo cv (runCbG cv m cb v) rest v)
    exact ih _ v (ginv_runCbG cv hcv m cb v h)

theorem ginv_micro_append (m : Machine) (t : MTask) (ht : t.owner < m.atoms.length)
    (h : GInv m) : GInv { m with micro := m.micro ++ [t] } := by
  obtain ⟨⟨h1, h2, h3⟩, hdep⟩ := h
  refine ⟨⟨h1, ?_, h3⟩, hdep⟩
  intro u hu
  rcases List.mem_append.mp hu with hu | hu
  · exact h2 u hu
  · simp at hu
    subst hu
    exact ht

theorem ginv_pend_append (m : Machine) (s : Option (Nat × Option JVal))
    (hs : ∀ p ∈ s, p.1 < m.atoms.length) (h : GInv m) :
    GInv { m with pend := m.pend ++ [s] } := by
  obtain ⟨⟨h1, h2, h3⟩, hdep⟩ := h
  refine ⟨⟨h1, h2, ?_⟩, hdep⟩
  intro u hu
  rcases List.mem_append.mp hu with hu | hu
  · exact h3 u hu
  · simp at hu
    subst hu
    exact hs

theorem ginv_computeValue (fuel : Nat) :
    ∀ (m : Machine) (owner : Nat), GInv m → GInv (computeValue fuel m owner) := by
  induction fuel with
  | zero => exact fun m o h => h
  | succ f ih =>
    intro m o h
    cases hg : m.atoms.get? o with
    | none =>
      have : computeValue (f + 1) m o = m := by
        conv_lhs => unfold computeValue
        rw [hg]
      rw [this]
      exact h
    | some st =>
      have ho : o < m.atoms.length := (List.get?_eq_some.mp hg).1
      have hst : st = atomAt m o := by
        have := get?_atomAt m o ho
        rw [hg] at this
        exact Option.some.inj this
      cases hd : (atomAt m o).deriv with
      | none =>
        rw [computeValue_primitive f m o ho hd]
        apply ginv_notifyGo (computeValue f) ih
        exact ginv_updAtom_inert m o _ (fun st => rfl) (fun st => rfl) h
      | some d =>
        rw [computeValue_derived f m o d ho hd]
        have hbump : GInv (bumpPasses m o) :=
          ginv_updAtom_inert m o _ (fun st => rfl) (fun st => rfl) h
        have hobump : o < (bumpPasses m o).atoms.length := by
          unfold bumpPasses
          rw [atoms_length_updAtom]
          exact ho
        have hrd : GInv (runDeriv o (bumpPasses m o) d.body).1 :=
          ginv_runDeriv o d.body (bumpPasses m o) hobump hbump
        have holen : o < (runDeriv o (bumpPasses m o) d.body).1.atoms.length := by
          rw [(runDeriv_framePres o d.body (bumpPasses m o)).1]
          exact hobump
        split
        · refine ginv_pend_append _ _ ?_ hrd
          intro p hp
          simp at hp
          rw [← hp]
          exact holen
        · split
          · exact hrd
          · exact ginv_micro_append _ _ holen hrd

theorem ginv_runTask (cv : Machine → Nat → Machine)
    (hcv : ∀ m j, GInv m → GInv (cv m j)) (m : Machine) (t : MTask)
    (h : GInv m) : GInv (runTask cv m t) := by
  unfold runTask
  apply ginv_notifyGo cv hcv
  unfold setVal
  rw [updAtom_updAtom]
  exact ginv_updAtom_inert m t.owner _ (fun st => rfl) (fun st => rfl) h

theorem ginv_micro_tail (m : Machine) (rest : List MTask)
    (hsub : ∀ t ∈ rest, t ∈ m.micro) (h : GInv m) :
    GInv { m with micro := rest } := by
  obtain ⟨⟨h1, h2, h3⟩, hdep⟩ := h
  exact ⟨⟨h1, fun t ht => h2 t (hsub t ht), h3⟩, hdep⟩

theorem ginv_drain (fuel : Nat) :
    ∀ (m : Machine), GInv m → GInv (drain fuel m) := by
  induction fuel with
  | zero => exact fun m h => h
  | succ f ih =>
    intro m h
    cases hm : m.micro with
    | nil =>
      rw [drain_micro_nil (f + 1) m hm]
      exact h
    | cons t rest =>
      rw [drain_cons f m t rest hm]
      apply ih
      apply ginv_runTask (computeValue f) (ginv_computeValue f)
      apply ginv_micro_tail m rest
      · intro u hu
        rw [hm]
        exact List.mem_cons_of_mem t hu
      · exact h

theorem ginv_resolveP (m : Machine) (j : Nat) (h : GInv m) : GInv (resolveP m j) := by
  unfold resolveP
  cases hp : m.pend.getD j none with
  | none => exact h
  | some p =>
    have hmem : some p ∈ m.pend := by
      by_cases hj : j < m.pend.length
      · rw [List.getD, List.get?_eq_getElem?, List.getElem?_eq_getElem hj] at hp
        simp at hp
        rw [← hp]
        exact List.getElem_mem hj
      · rw [List.getD, List.get?_eq_getElem?, List.getElem?_eq_none (Nat.le_of_not_lt hj)] at hp
        simp at hp
    have hset : GInv { m with pend := m.pend.set j none } := by
      obtain ⟨⟨h1, h2, h3⟩, hdep⟩ := h
      refine ⟨⟨h1, h2, ?_⟩, hdep⟩
      intro s hs
      rcases List.mem_or_eq_of_mem_set hs with hs | hs
      · exact h3 s hs
      · subst hs
        intro p hp
        cases hp
    rcases p with ⟨owner, r⟩
    have howner : owner < m.atoms.length := (h.1.2.2 _ hmem) (owner, r) rfl
    cases r with
    | none => exact hset
    | some v =>
      exact ginv_micro_append { m with pend := m.pend.set j none } ⟨owner, v⟩ howner hset

theorem ginv_append_atom (m : Machine) (st : AtomSt) (hsubs : st.subs = [])
    (h : GInv m) : GInv { m with atoms := m.atoms ++ [st] } := by
  obtain ⟨⟨h1, h2, h3⟩, hdep⟩ := h
  have hlen : ({ m with atoms := m.atoms ++ [st] } : Machine).atoms.length
      = m.atoms.length + 1 := by
    simp
  have hat : ∀ d, (atomAt { m with atoms := m.atoms ++ [st] } d).subs = (atomAt m d).subs
      ∨ (d = m.atoms.length ∧
        (atomAt { m with atoms := m.atoms ++ [st] } d).subs = []) := by
    intro d
    by_cases hd : d < m.atoms.length
    · left
      rw [atomAt_append_lt m st d hd]
    · by_cases hd2 : d = m.atoms.length
      · right
        refine ⟨hd2, ?_⟩
        subst hd2
        rw [atomAt_append_self m st]
        exact hsubs
      · left
        have hge : m.atoms.length + 1 ≤ d := by omega
        rw [atomAt_ge _ d (by rw [hlen]; exact hge), atomAt_ge m d (by omega)]
  have hsubscr : ∀ o, o < m.atoms.length →
      (atomAt { m with atoms := m.atoms ++ [st] } o).subscribed
      = (atomAt m o).subscribed := by
    intro o hu
    rw [atomAt_append_lt m st o hu]
  refine ⟨⟨?_, ?_, ?_⟩, ?_⟩
  · intro d o c hmem
    rw [hlen]
    rcases hat d with hd | ⟨hd, hnil⟩
    · rw [hd] at hmem
      exact Nat.lt_succ_of_lt (h1 d o c hmem)
    · rw [hnil] at hmem
      exact absurd hmem (List.not_mem_nil _)
  · intro t ht
    rw [hlen]
    exact Nat.lt_succ_of_lt (h2 t ht)
  · intro s hs
    rw [hlen]
    intro p hp
    exact Nat.lt_succ_of_lt (h3 s hs p hp)
  · intro d o
    rcases hat d with hd | ⟨hdeq, hnil⟩
    · rw [hd]
      refine ⟨(hdep d o).1, fun hc => ?_⟩
      have hmemd := (hdep d o).2 hc
      have holt : o < m.atoms.length := by
        rcases countD_pos o _ hc with ⟨c, hcm⟩
        exact h1 d o c hcm
      rw [hsubscr o holt]
      exact hmemd
    · rw [hnil]
      exact ⟨Nat.zero_le 1, fun hc => (Nat.not_succ_le_zero 0 hc).elim⟩

theorem ginv_subscribeA (m : Machine) (i k : Nat) (h : GInv m) :
    GInv (subscribeA m i (Cb.recorder k)) := by
  obtain ⟨⟨h1, h2, h3⟩, hdep⟩ := h
  unfold subscribeA
  have hat : ∀ d, (atomAt (updAtom m i fun st =>
      { st with subs := setAdd st.subs (Cb.recorder k) }) d).subs = (atomAt m d).subs
      ∨ (atomAt (updAtom m i fun st =>
      { st with subs := setAdd st.subs (Cb.recorder k) }) d).subs
      = setAdd (atomAt m d).subs (Cb.recorder k) := by
    intro d
    by_cases hd : d = i
    · subst hd
      by_cases hlt : d < m.atoms.length
      · right
        rw [atomAt_updAtom_self m d _ hlt]
      · left
        rw [updAtom_le m d _ (Nat.le_of_not_lt hlt)]
    · left
      rw [atomAt_updAtom_ne m d i _ hd]
  refine ⟨⟨?_, ?_, ?_⟩, ?_⟩
  · intro d o c hmem
    rw [atoms_length_updAtom]
    rcases hat d with hd | hd
    · rw [hd] at hmem
      exact h1 d o c hmem
    · rw [hd] at hmem
      rcases mem_setAdd _ _ _ hmem with hmm | hmm
      · exact h1 d o c hmm
      · cases hmm
  · intro t ht
    rw [atoms_length_updAtom]
    exact h2 t ht
  · intro s hs
    rw [atoms_length_updAtom]
    exact h3 s hs
  · intro d o
    have hsubscr : (atomAt (updAtom m i fun st =>
        { st with subs := setAdd st.subs (Cb.recorder k) }) o).subscribed
        = (atomAt m o).subscribed :=
      atomAt_field_updAtom (fun st => st.subscribed) m o i _ (fun st => rfl)
    rcases hat d with hd | hd
    · rw [hd, hsubscr]
      exact hdep d o
    · rw [hd, hsubscr, countD_setAdd_recorder]
      exact hdep d o

theorem ginv_unsubscribeA (m : Machine) (i k : Nat) (h : GInv m) :
    GInv (unsubscribeA m i (Cb.recorder k)) := by
  obtain ⟨⟨h1, h2, h3⟩, hdep⟩ := h
  unfold unsubscribeA
  have hat : ∀ d, (atomAt (updAtom m i fun st =>
      { st with subs := st.subs.erase (Cb.recorder k) }) d).subs = (atomAt m d).subs
      ∨ (atomAt (updAtom m i fun st =>
      { st with subs := st.subs.erase (Cb.recorder k) }) d).subs
      = (atomAt m d).subs.erase (Cb.recorder k) := by
    intro d
    by_cases hd : d = i
    · subst hd
      by_cases hlt : d < m.atoms.length
      · right
        rw [atomAt_updAtom_self m d _ hlt]
      · left
        rw [updAtom_le m d _ (Nat.le_of_not_lt hlt)]
    · left
      rw [atomAt_updAtom_ne m d i _ hd]
  refine ⟨⟨?_, ?_, ?_⟩, ?_⟩
  · intro d o c hmem
    rw [atoms_length_updAtom]
    rcases hat d with hd | hd
    · rw [hd] at hmem
      exact h1 d o c hmem
    · rw [hd] at hmem
      exact h1 d o c (List.mem_of_mem_erase hmem)
  · intro t ht
    rw [atoms_length_updAtom]
    exact h2 t ht
  · intro s hs
    rw [atoms_length_updAtom]
    exact h3 s hs
  · intro d o
    have hsubscr : (atomAt (updAtom m i fun st =>
        { st with subs := st.subs.erase (Cb.recorder k) }) o).subscribed
        = (atomAt m o).subscribed :=
      atomAt_field_updAtom (fun st => st.subscribed) m o i _ (fun st => rfl)
    rcases hat d with hd | hd
    · rw [hd, hsubscr]
      exact hdep d o
    · rw [hd, hsubscr]
      refine ⟨Nat.le_trans (countD_erase_le o _ _) (hdep d o).1, fun hc => ?_⟩
      exact (hdep d o).2 (Nat.le_trans hc (countD_erase_le o _ _))

theorem ginv_setA (fuel : Nat) (m : Machine) (i : Nat) (v : JVal) (h : GInv m) :
    GInv (setA fuel m i v) := by
  unfold setA
  apply ginv_computeValue
  unfold setVal
  exact ginv_updAtom_inert m i _ (fun st => rfl) (fun st => rfl) h

theorem ginv_createAtomP (fuel : Nat) (m : Machine) (v : JVal) (h : GInv m) :
    GInv (createAtomP fuel m v) := by
  unfold createAtomP
  apply ginv_computeValue
  exact ginv_append_atom m _ rfl h

theorem ginv_createAtomD (fuel : Nat) (m : Machine) (d : Deriv) (h : GInv m) :
    GInv (createAtomD fuel m d) := by
  unfold createAtomD
  apply ginv_computeValue
  exact ginv_append_atom m _ rfl h

theorem ginv_runOp (fuel : Nat) (m : Machine) (op : Op) (h : GInv m) :
    GInv (runOp fuel m op) := by
  cases op with
  | createP v => exact ginv_drain fuel _ (ginv_createAtomP fuel m v h)
  | createD d => exact ginv_drain fuel _ (ginv_createAtomD fuel m d h)
  | setOp i v => exact ginv_drain fuel _ (ginv_setA fuel m i v h)
  | subOp i k => exact ginv_subscribeA m i k h
  | unsubOp i k => exact ginv_unsubscribeA m i k h
  | cloneOp i => exact ginv_drain fuel _ (ginv_createAtomP fuel m _ h)
  | resolveOp j => exact ginv_drain fuel _ (ginv_resolveP m j h)

theorem ginv_runOps (fuel : Nat) (ops : List Op) :
    ∀ (m : Machine), GInv m → GInv (runOps fuel m ops) := by
  induction ops with
  | nil => exact fun m h => h
  | cons op rest ih =>
    intro m h
    exact ih (runOp fuel m op) (ginv_runOp fuel m op h)

/-- C7: over any run of the store from scratch, every atom holds at most one
dependency-callback subscription per owning atom — no matter how many times
a derivation reads the same dependency within one pass or across repeated
passes, the `subscribed` tracking set prevents a duplicate subscription. -/
theorem claim7_single_subscription (fuel : Nat) (ops : List Op) (d o : Nat) :
    countD o (atomAt (runOps fuel emptyM ops) d).subs ≤ 1 :=
  ((ginv_runOps fuel ops emptyM ginv_empty).2 d o).1

/-! ## Quiescence: activity on other atoms never touches a primitive atom
that nothing recomputes -/

theorem prot_updAtom (i : Nat) (m : Machine) (j : Nat) (f : AtomSt → AtomSt)
    (hf : ∀ st c, Cb.depCb i c ∈ (f st).subs → Cb.depCb i c ∈ st.subs)
    (h : Prot i m) : Prot i (updAtom m j f) := by
  obtain ⟨hlen, hns, hmi, hpe⟩ := h
  refine ⟨by rw [atoms_length_updAtom]; exact hlen, ?_, hmi, hpe⟩
  intro d c hmem
  by_cases hd : d = j
  · subst hd
    by_cases hlt : d < m.atoms.length
    · rw [atomAt_updAtom_self m d f hlt] at hmem
      exact hns d c (hf _ c hmem)
    · rw [updAtom_le m d f (Nat.le_of_not_lt hlt)] at hmem
      exact hns d c hmem
  · rw [atomAt_updAtom_ne m d j f hd] at hmem
    exact hns d c hmem

theorem coreAt_updAtom_ne (m : Machine) (i j : Nat) (f : AtomSt → AtomSt)
    (hij : i ≠ j) : coreAt (updAtom m j f) i = coreAt m i := by
  unfold coreAt
  rw [atomAt_updAtom_ne m i j f hij]

theorem coreAt_updAtom_subsOnly (m : Machine) (i j : Nat) (f : AtomSt → AtomSt)
    (hval : ∀ st, (f st).value = st.value)
    (hpas : ∀ st, (f st).passes = st.passes)
    (hder : ∀ st, (f st).deriv = st.deriv)
    (hsubd : ∀ st, (f st).subscribed = st.subscribed) :
    coreAt (updAtom m j f) i = coreAt m i := by
  unfold coreAt
  rw [atomAt_field_updAtom (fun st => st.value) m i j f hval,
    atomAt_field_updAtom (fun st => st.passes) m i j f hpas,
    atomAt_field_updAtom (fun st => st.deriv) m i j f hder,
    atomAt_field_updAtom (fun st => st.subscribed) m i j f hsubd]

theorem prot_doGet (i : Nat) (m : Machine) (o a : Nat) (hoi : o ≠ i)
    (h : Prot i m) :
    Prot i (doGet m o a).1 ∧ coreAt (doGet m o a).1 i = coreAt m i := by
  unfold doGet
  split
  · exact ⟨h, rfl⟩
  · dsimp only
    have hcells : Prot i ({ m with cells := m.cells ++ [(atomAt m a).value] } : Machine) := h
    have h2 := prot_updAtom i _ o
      (fun st => { st with subscribed := st.subscribed ++ [a] })
      (fun st c hc => hc) hcells
    have h3 := prot_updAtom i _ a
      (fun st => { st with subs := setAdd st.subs (Cb.depCb o m.cells.length) })
      (fun st c hc => by
        rcases mem_setAdd _ _ _ hc with hm | hm
        · exact hm
        · cases hm
          exact absurd rfl hoi) h2
    refine ⟨h3, ?_⟩
    have hc1 : coreAt (updAtom (updAtom { m with cells := m.cells ++ [(atomAt m a).value] } o
        fun st => { st with subscribed := st.subscribed ++ [a] }) a
        fun st => { st with subs := setAdd st.subs (Cb.depCb o m.cells.length) }) i
        = coreAt (updAtom { m with cells := m.cells ++ [(atomAt m a).value] } o
        fun st => { st with subscribed := st.subscribed ++ [a] }) i :=
      coreAt_updAtom_subsOnly _ i a _ (fun st => rfl) (fun st => rfl) (fun st => rfl)
        (fun st => rfl)
    have hc2 : coreAt (updAtom { m with cells := m.cells ++ [(atomAt m a).value] } o
        fun st => { st with subscribed := st.subscribed ++ [a] }) i
        = coreAt ({ m with cells := m.cells ++ [(atomAt m a).value] } : Machine) i :=
      coreAt_updAtom_ne _ i o _ (fun hc => hoi hc.symm)
    rw [hc1, hc2]
    rfl

theorem prot_runDeriv (i o : Nat) (e : DExp) (m : Machine) (hoi : o ≠ i)
    (h : Prot i m) :
    Prot i (runDeriv o m e).1 ∧ coreAt (runDeriv o m e).1 i = coreAt m i := by
  induction e generalizing m with
  | lit v => exact ⟨h, rfl⟩
  | getD a => exact prot_doGet i m o a hoi h
  | add e1 e2 ih1 ih2 =>
    rcases h1 : runDeriv o m e1 with ⟨m1, r1⟩
    have hp1 : Prot i m1 ∧ coreAt m1 i = coreAt m i := by
      have := ih1 m h
      rw [h1] at this
      exact this
    rcases r1 with _ | v1
    · simpa [runDeriv, h1] using hp1
    · rcases h2 : runDeriv o m1 e2 with ⟨m2, r2⟩
      have hp2 : Prot i m2 ∧ coreAt m2 i = coreAt m1 i := by
        have := ih2 m1 hp1.1
        rw [h2] at this
        exact this
      rcases r2 with _ | v2
      · simpa [runDeriv, h1, h2] using ⟨hp2.1, hp2.2.trans hp1.2⟩
      · simpa [runDeriv, h1, h2] using ⟨hp2.1, hp2.2.trans hp1.2⟩
  | failIfNeg e ih =>
    rcases h1 : runDeriv o m e with ⟨m1, r1⟩
    have hp1 : Prot i m1 ∧ coreAt m1 i = coreAt m i := by
      have := ih m h
      rw [h1] at this
      exact this
    rcases r1 with _ | v1
    · simpa [runDeriv, h1] using hp1
    · rcases v1 with _ | n
      · simpa [runDeriv, h1] using hp1
      · by_cases hn : n < 0
        · simpa [runDeriv, h1, hn] using hp1
        · simpa [runDeriv, h1, hn] using hp1

theorem prot_runCbG (i : Nat) (cv : Machine → Nat → Machine)
    (hcv : ∀ m j, j ≠ i → Prot i m → Prot i (cv m j) ∧ coreAt (cv m j) i = coreAt m i)
    (m : Machine) (cb : Cb) (v : JVal) (hcb : ∀ c, cb ≠ Cb.depCb i c)
    (h : Prot i m) :
    Prot i (runCbG cv m cb v) ∧ coreAt (runCbG cv m cb v) i = coreAt m i := by
  cases cb with
  | recorder k => exact ⟨h, rfl⟩
  | depCb o c =>
    have hoi : o ≠ i := by
      intro hc
      subst hc
      exact hcb c rfl
    show Prot i (if m.cells.getD c JVal.null = v then m else cv (updCell m c v) o) ∧
      coreAt (if m.cells.getD c JVal.null = v then m else cv (updCell m c v) o) i = coreAt m i
    split
    · exact ⟨h, rfl⟩
    · exact hcv (updCell m c v) o hoi h

theorem prot_notifyGo (i : Nat) (cv : Machine → Nat → Machine)
    (hcv : ∀ m j, j ≠ i → Prot i m → Prot i (cv m j) ∧ coreAt (cv m j) i = coreAt m i)
    (cbs : List Cb) :
    ∀ (m : Machine) (v : JVal), (∀ c, Cb.depCb i c ∉ cbs) → Prot i m →
      Prot i (notifyGo cv m cbs v) ∧ coreAt (notifyGo cv m cbs v) i = coreAt m i := by
  induction cbs with
  | nil => exact fun m v _ h => ⟨h, rfl⟩
  | cons cb rest ih =>
    intro m v hcbs h
    have hcb : ∀ c, cb ≠ Cb.depCb i c := by
      intro c hc
      exact hcbs c (hc ▸ List.mem_cons_self cb rest)
    have hhd := prot_runCbG i cv hcv m cb v hcb h
    have hrest : ∀ c, Cb.depCb i c ∉ rest := by
      intro c hc
      exact hcbs c (List.mem_cons_of_mem cb hc)
    have := ih (runCbG cv m cb v) v hrest hhd.1
    exact ⟨this.1, this.2.trans hhd.2⟩

theorem prot_computeValue (i fuel : Nat) :
    ∀ (m : Machine) (j : Nat), j ≠ i → Prot i m →
      Prot i (computeValue fuel m j) ∧ coreAt (computeValue fuel m j) i = coreAt m i := by
  induction fuel with
  | zero => exact fun m j _ h => ⟨h, rfl⟩
  | succ f ih =>
    intro m j hji h
    cases hg : m.atoms.get? j with
    | none =>
      have heq : computeValue (f + 1) m j = m := by
        conv_lhs => unfold computeValue
        rw [hg]
      rw [heq]
      exact ⟨h, rfl⟩
    | some st =>
      have hj : j < m.atoms.length := (List.get?_eq_some.mp hg).1
      cases hd : (atomAt m j).deriv with
      | none =>
        rw [computeValue_primitive f m j hj hd]
        have hupd := prot_updAtom i m j
          (fun st => { st with value := (atomAt m j).value, passes := st.passes + 1 })
          (fun st c hc => hc) h
        have hcore : coreAt (updAtom m j
            (fun st => { st with value := (atomAt m j).value, passes := st.passes + 1 })) i
            = coreAt m i :=
          coreAt_updAtom_ne m i j _ (fun hc => hji hc.symm)
        have := prot_notifyGo i (computeValue f) (fun m' j' => ih m' j')
          ((atomAt m j).subs)
          (updAtom m j
            (fun st => { st with value := (atomAt m j).value, passes := st.passes + 1 }))
          ((atomAt m j).value) (fun c => h.2.1 j c) hupd
        exact ⟨this.1, this.2.trans hcore⟩
      | some d =>
        rw [computeValue_derived f m j d hj hd]
        have hbump := prot_updAtom i m j
          (fun st => { st with passes := st.passes + 1 }) (fun st c hc => hc) h
        have hbcore : coreAt (bumpPasses m j) i = coreAt m i :=
          coreAt_updAtom_ne m i j _ (fun hc => hji hc.symm)
        have hrd := prot_runDeriv i j d.body (bumpPasses m j) hji hbump
        obtain ⟨⟨hrlen, hrns, hrmi, hrpe⟩, hrcore⟩ := hrd
        split
        · refine ⟨⟨hrlen, hrns, hrmi, ?_⟩, hrcore.trans hbcore⟩
          intro s hs
          rcases List.mem_append.mp hs with hs | hs
          · exact hrpe s hs
          · simp at hs
            subst hs
            intro p hp
            simp at hp
            rw [← hp]
            exact fun hc => hji hc
        · split
          · exact ⟨⟨hrlen, hrns, hrmi, hrpe⟩, hrcore.trans hbcore⟩
          · refine ⟨⟨hrlen, hrns, ?_, hrpe⟩, hrcore.trans hbcore⟩
            intro t ht
            rcases List.mem_append.mp ht with ht | ht
            · exact hrmi t ht
            · simp at ht
              rw [ht]
              exact fun hc => hji hc

theorem prot_runTask (i : Nat) (cv : Machine → Nat → Machine)
    (hcv : ∀ m j, j ≠ i → Prot i m → Prot i (cv m j) ∧ coreAt (cv m j) i = coreAt m i)
    (m : Machine) (t : MTask) (hti : t.owner ≠ i) (h : Prot i m) :
    Prot i (runTask cv m t) ∧ coreAt (runTask cv m t) i = coreAt m i := by
  unfold runTask
  have hupd1 := prot_updAtom i m t.owner (fun st => { st with value := JVal.null })
    (fun st c hc => hc) h
  have hupd2 := prot_updAtom i (updAtom m t.owner (fun st => { st with value := JVal.null }))
    t.owner (fun st => { st with value := t.val }) (fun st c hc => hc) hupd1
  have hcore1 : coreAt (updAtom m t.owner (fun st => { st with value := JVal.null })) i
      = coreAt m i :=
    coreAt_updAtom_ne m i t.owner _ (fun hc => hti hc.symm)
  have hcore2 : coreAt (updAtom (updAtom m t.owner (fun st => { st with value := JVal.null }))
      t.owner (fun st => { st with value := t.val })) i
      = coreAt (updAtom m t.owner (fun st => { st with value := JVal.null })) i :=
    coreAt_updAtom_ne _ i t.owner _ (fun hc => hti hc.symm)
  have hngo := prot_notifyGo i cv hcv
    ((atomAt (setVal (setVal m t.owner JVal.null) t.owner t.val) t.owner).subs)
    (setVal (setVal m t.owner JVal.null) t.owner t.val)
    t.val (fun c => hupd2.2.1 t.owner c) hupd2
  exact ⟨hngo.1, (hngo.2.trans hcore2).trans hcore1⟩

theorem prot_drain (i fuel : Nat) :
    ∀ (m : Machine), Prot i m →
      Prot i (drain fuel m) ∧ coreAt (drain fuel m) i = coreAt m i := by
  induction fuel with
  | zero => exact fun m h => ⟨h, rfl⟩
  | succ f ih =>
    intro m h
    cases hm : m.micro with
    | nil =>
      rw [drain_micro_nil (f + 1) m hm]
      exact ⟨h, rfl⟩
    | cons t rest =>
      rw [drain_cons f m t rest hm]
      have hti : t.owner ≠ i := h.2.2.1 t (by rw [hm]; exact List.mem_cons_self t rest)
      have htail : Prot i ({ m with micro := rest } : Machine) := by
        obtain ⟨hlen, hns, hmi, hpe⟩ := h
        exact ⟨hlen, hns,
          fun u hu => hmi u (by rw [hm]; exact List.mem_cons_of_mem t hu), hpe⟩
      have hrt := prot_runTask i (computeValue f) (fun m' j' => prot_computeValue i f m' j')
        { m with micro := rest } t hti htail
      have := ih _ hrt.1
      refine ⟨this.1, (this.2.trans hrt.2).trans ?_⟩
      rfl

theorem prot_resolveP (i : Nat) (m : Machine) (j : Nat) (h : Prot i m) :
    Prot i (resolveP m j) ∧ coreAt (resolveP m j) i = coreAt m i := by
  unfold resolveP
  cases hp : m.pend.getD j none with
  | none => exact ⟨h, rfl⟩
  | some p =>
    have hmem : some p ∈ m.pend := by
      by_cases hj : j < m.pend.length
      · rw [List.getD, List.get?_eq_getElem?, List.getElem?_eq_getElem hj] at hp
        simp at hp
        rw [← hp]
        exact List.getElem_mem hj
      · rw [List.getD, List.get?_eq_getElem?,
          List.getElem?_eq_none (Nat.le_of_not_lt hj)] at hp
        simp at hp
    obtain ⟨hlen, hns, hmi, hpe⟩ := h
    have hpend' : ∀ s ∈ m.pend.set j none, ∀ q ∈ s, q.1 ≠ i := by
      intro s hs
      rcases List.mem_or_eq_of_mem_set hs with hs | hs
      · exact hpe s hs
      · subst hs
        intro q hq
        cases hq
    rcases p with ⟨owner, r⟩
    have howner : owner ≠ i := hpe _ hmem (owner, r) rfl
    cases r with
    | none => exact ⟨⟨hlen, hns, hmi, hpend'⟩, rfl⟩
    | some v =>
      refine ⟨⟨hlen, hns, ?_, hpend'⟩, rfl⟩
      intro t ht
      rcases List.mem_append.mp ht with ht | ht
      · exact hmi t ht
      · simp at ht
        rw [ht]
        exact howner

/-- A freshly appended atom with no subscribers is quiescent, provided the
pre-existing machine is reference-well-formed. -/
theorem prot_fresh (m : Machine) (st : AtomSt) (hsubs : st.subs = [])
    (h : wfRefs m) : Prot m.atoms.length { m with atoms := m.atoms ++ [st] } := by
  obtain ⟨h1, h2, h3⟩ := h
  refine ⟨by simp, ?_, ?_, ?_⟩
  · intro d c hmem
    by_cases hd : d < m.atoms.length
    · rw [atomAt_append_lt m st d hd] at hmem
      exact absurd (h1 d _ c hmem) (Nat.lt_irrefl _)
    · by_cases hd2 : d = m.atoms.length
      · subst hd2
        rw [atomAt_append_self m st, hsubs] at hmem
        exact absurd hmem (List.not_mem_nil _)
      · rw [atomAt_ge _ d (by simp; omega)] at hmem
        exact absurd hmem (List.not_mem_nil _)
  · intro t ht
    exact Nat.ne_of_lt (h2 t ht)
  · intro s hs p hp
    exact Nat.ne_of_lt (h3 s hs p hp)

/-- The construction of a primitive atom in full: append the atom with its
initial value, then the construction-time `computeValue` pass runs (bumping
the ghost pass counter to `1`), leaves the value at the initial value, and
notifies the empty subscriber set. -/
theorem createAtomP_eq (fuel : Nat) (m : Machine) (v : JVal) :
    createAtomP (fuel + 1) m v =
      { m with atoms := m.atoms ++ [⟨v, [], [], none, 1⟩] } := by
  unfold createAtomP
  have hlen : m.atoms.length <
      ({ m with atoms := m.atoms ++ [⟨v, [], [], none, 0⟩] } : Machine).atoms.length := by
    simp
  have hat := atomAt_append_self m ⟨v, [], [], none, 0⟩
  rw [computeValue_primitive fuel _ m.atoms.length hlen (by rw [hat])]
  rw [hat]
  show updAtom { m with atoms := m.atoms ++ [⟨v, [], [], none, 0⟩] } m.atoms.length
      (fun st => { st with value := v, passes := st.passes + 1 }) = _
  unfold updAtom
  have hgd : ({ m with atoms := m.atoms ++ [⟨v, [], [], none, 0⟩] } : Machine).atoms.getD
      m.atoms.length default = ⟨v, [], [], none, 0⟩ := hat
  rw [hgd]
  have hset : (m.atoms ++ [(⟨v, [], [], none, 0⟩ : AtomSt)]).set m.atoms.length
      ⟨v, [], [], none, 1⟩ = m.atoms ++ [⟨v, [], [], none, 1⟩] := by
    rw [List.set_append]
    simp
  show ({ m with atoms := ((m.atoms ++ [(⟨v, [], [], none, 0⟩ : AtomSt)]).set m.atoms.length
      ⟨v, [], [], none, 1⟩ : List AtomSt) } : Machine) = _
  rw [hset]

/-- `set` on an atom with no subscribers and no derivation only changes that
atom (the synchronous pass notifies nobody and schedules nothing). -/
theorem setA_isolated (fuel : Nat) (m : Machine) (i j : Nat) (y : JVal)
    (hlen : i < m.atoms.length)
    (hsubs : (atomAt m i).subs = [])
    (hprim : (atomAt m i).deriv = none)
    (hij : j ≠ i) :
    (atomAt (setA fuel m i y) j).value = (atomAt m j).value := by
  cases fuel with
  | zero =>
    show (atomAt (setVal m i y) j).value = _
    unfold setVal
    rw [atomAt_updAtom_ne m j i _ hij]
  | succ f =>
    have hlen' : i < (setVal m i y).atoms.length := by
      unfold setVal
      rw [atoms_length_updAtom]
      exact hlen
    have hat' : atomAt (setVal m i y) i = { atomAt m i with value := y } := by
      unfold setVal
      rw [atomAt_updAtom_self m i _ hlen]
    unfold setA
    rw [computeValue_primitive f (setVal m i y) i hlen' (by rw [hat']; exact hprim)]
    have hsubs' : (atomAt (setVal m i y) i).subs = [] := by
      rw [hat']
      exact hsubs
    rw [hsubs']
    show (atomAt (updAtom (setVal m i y) i _) j).value = _
    rw [atomAt_updAtom_ne _ j i _ hij]
    unfold setVal
    rw [atomAt_updAtom_ne m j i _ hij]

theorem prot_subscribeA (i : Nat) (m : Machine) (j k : Nat) (h : Prot i m) :
    Prot i (subscribeA m j (Cb.recorder k)) ∧
    coreAt (subscribeA m j (Cb.recorder k)) i = coreAt m i := by
  unfold subscribeA
  refine ⟨prot_updAtom i m j _ (fun st c hc => ?_) h, ?_⟩
  · rcases mem_setAdd _ _ _ hc with hm | hm
    · exact hm
    · cases hm
  · exact coreAt_updAtom_subsOnly m i j _ (fun st => rfl) (fun st => rfl)
      (fun st => rfl) (fun st => rfl)

theorem prot_unsubscribeA (i : Nat) (m : Machine) (j k : Nat) (h : Prot i m) :
    Prot i (unsubscribeA m j (Cb.recorder k)) ∧
    coreAt (unsubscribeA m j (Cb.recorder k)) i = coreAt m i := by
  unfold unsubscribeA
  refine ⟨prot_updAtom i m j _ (fun st c hc => List.mem_of_mem_erase hc) h, ?_⟩
  exact coreAt_updAtom_subsOnly m i j _ (fun st => rfl) (fun st => rfl)
    (fun st => rfl) (fun st => rfl)

theorem prot_setA (i fuel : Nat) (m : Machine) (j : Nat) (v : JVal) (hji : j ≠ i)
    (h : Prot i m) :
    Prot i (setA fuel m j v) ∧ coreAt (setA fuel m j v) i = coreAt m i := by
  unfold setA setVal
  have hupd := prot_updAtom i m j (fun st => { st with value := v }) (fun st c hc => hc) h
  have hcore : coreAt (updAtom m j (fun st => { st with value := v })) i = coreAt m i :=
    coreAt_updAtom_ne m i j _ (fun hc => hji hc.symm)
  have := prot_computeValue i fuel _ j hji hupd
  exact ⟨this.1, this.2.trans hcore⟩

theorem prot_append_pres (i : Nat) (m : Machine) (st : AtomSt) (hsubs : st.subs = [])
    (h : Prot i m) :
    Prot i { m with atoms := m.atoms ++ [st] } ∧
    coreAt { m with atoms := m.atoms ++ [st] } i = coreAt m i := by
  obtain ⟨hlen, hns, hmi, hpe⟩ := h
  refine ⟨⟨by simp; omega, ?_, hmi, hpe⟩, ?_⟩
  · intro d c hmem
    by_cases hd : d < m.atoms.length
    · rw [atomAt_append_lt m st d hd] at hmem
      exact hns d c hmem
    · by_cases hd2 : d = m.atoms.length
      · subst hd2
        rw [atomAt_append_self m st, hsubs] at hmem
        exact absurd hmem (List.not_mem_nil _)
      · rw [atomAt_ge _ d (by simp; omega)] at hmem
        exact absurd hmem (List.not_mem_nil _)
  · unfold coreAt
    rw [atomAt_append_lt m st i hlen]

theorem prot_createAtomP (i fuel : Nat) (m : Machine) (v : JVal) (h : Prot i m) :
    Prot i (createAtomP fuel m v) ∧ coreAt (createAtomP fuel m v) i = coreAt m i := by
  unfold createAtomP
  have happ := prot_append_pres i m ⟨v, [], [], none, 0⟩ rfl h
  have hne : m.atoms.length ≠ i := Nat.ne_of_gt h.1
  have := prot_computeValue i fuel _ m.atoms.length hne happ.1
  exact ⟨this.1, this.2.trans happ.2⟩

theorem prot_createAtomD (i fuel : Nat) (m : Machine) (d : Deriv) (h : Prot i m) :
    Prot i (createAtomD fuel m d) ∧ coreAt (createAtomD fuel m d) i = coreAt m i := by
  unfold createAtomD
  have happ := prot_append_pres i m ⟨JVal.null, [], [], some d, 0⟩ rfl h
  have hne : m.atoms.length ≠ i := Nat.ne_of_gt h.1
  have := prot_computeValue i fuel _ m.atoms.length hne happ.1
  exact ⟨this.1, this.2.trans happ.2⟩

theorem prot_runOp (i fuel : Nat) (m : Machine) (op : Op)
    (hop : writesTo i op = false) (h : Prot i m) :
    Prot i (runOp fuel m op) ∧ coreAt (runOp fuel m op) i = coreAt m i := by
  cases op with
  | createP v =>
    have h1 := prot_createAtomP i fuel m v h
    have h2 := prot_drain i fuel _ h1.1
    exact ⟨h2.1, h2.2.trans h1.2⟩
  | createD d =>
    have h1 := prot_createAtomD i fuel m d h
    have h2 := prot_drain i fuel _ h1.1
    exact ⟨h2.1, h2.2.trans h1.2⟩
  | setOp j v =>
    have hji : j ≠ i := by
      intro hc
      subst hc
      simp [writesTo] at hop
    have h1 := prot_setA i fuel m j v hji h
    have h2 := prot_drain i fuel _ h1.1
    exact ⟨h2.1, h2.2.trans h1.2⟩
  | subOp j k => exact prot_subscribeA i m j k h
  | unsubOp j k => exact prot_unsubscribeA i m j k h
  | cloneOp j =>
    have h1 := prot_createAtomP i fuel m (atomAt m j).value h
    have h2 := prot_drain i fuel _ h1.1
    exact ⟨h2.1, h2.2.trans h1.2⟩
  | resolveOp j =>
    have h1 := prot_resolveP i m j h
    have h2 := prot_drain i fuel _ h1.1
    exact ⟨h2.1, h2.2.trans h1.2⟩

theorem prot_runOps (i fuel : Nat) (ops : List Op)
    (hops : ∀ op ∈ ops, writesTo i op = false) :
    ∀ (m : Machine), Prot i m →
      Prot i (runOps fuel m ops) ∧ coreAt (runOps fuel m ops) i = coreAt m i := by
  induction ops with
  | nil => exact fun m h => ⟨h, rfl⟩
  | cons op rest ih =>
    intro m h
    have hhd := prot_runOp i fuel m op (hops op (List.mem_cons_self op rest)) h
    have := ih (fun o ho => hops o (List.mem_cons_of_mem op ho)) _ hhd.1
    exact ⟨this.1, this.2.trans hhd.2⟩

/-- C4: for a primitive atom created with a non-callable initial value, the
value equals the initial value immediately after `createAtom` returns — the
construction-time `computeValue` pass (ghost pass counter `1`) leaves it
unchanged and notifies the empty subscriber set — and between construction
and the first explicit write to the atom no further recomputation pass runs
on it: under any subsequent operations that do not write it, its pass
counter stays at `1` and its value stays the initial value. -/
theorem claim4_primitive_construction (fuel fuel1 fuel2 : Nat) (ops0 ops1 : List Op)
    (v : JVal)
    (hops1 : ∀ op ∈ ops1, writesTo (runOps fuel emptyM ops0).atoms.length op = false) :
    ((atomAt (createAtomP (fuel1 + 1) (runOps fuel emptyM ops0) v)
        (runOps fuel emptyM ops0).atoms.length).value = v ∧
     (atomAt (createAtomP (fuel1 + 1) (runOps fuel emptyM ops0) v)
        (runOps fuel emptyM ops0).atoms.length).passes = 1) ∧
    ((atomAt (runOps fuel2 (drain fuel1 (createAtomP (fuel1 + 1)
          (runOps fuel emptyM ops0) v)) ops1)
        (runOps fuel emptyM ops0).atoms.length).value = v ∧
     (atomAt (runOps fuel2 (drain fuel1 (createAtomP (fuel1 + 1)
          (runOps fuel emptyM ops0) v)) ops1)
        (runOps fuel emptyM ops0).atoms.length).passes = 1) := by
  have hg : GInv (runOps fuel emptyM ops0) := ginv_runOps fuel ops0 emptyM ginv_empty
  have hcr := createAtomP_eq fuel1 (runOps fuel emptyM ops0) v
  have hat : atomAt (createAtomP (fuel1 + 1) (runOps fuel emptyM ops0) v)
      (runOps fuel emptyM ops0).atoms.length = ⟨v, [], [], none, 1⟩ := by
    rw [hcr]
    exact atomAt_append_self _ _
  refine ⟨⟨by rw [hat], by rw [hat]⟩, ?_⟩
  have hprot : Prot (runOps fuel emptyM ops0).atoms.length
      (createAtomP (fuel1 + 1) (runOps fuel emptyM ops0) v) := by
    rw [hcr]
    exact prot_fresh _ _ rfl hg.1
  have hdr := prot_drain (runOps fuel emptyM ops0).atoms.length fuel1 _ hprot
  have hrun := prot_runOps (runOps fuel emptyM ops0).atoms.length fuel2 ops1 hops1 _ hdr.1
  have hcore := hrun.2.trans hdr.2
  have hval := congrArg (fun q : JVal × Nat × Option Deriv × List Nat => q.1) hcore
  have hpas := congrArg (fun q : JVal × Nat × Option Deriv × List Nat => q.2.1) hcore
  constructor
  · calc (atomAt (runOps fuel2 (drain fuel1 (createAtomP (fuel1 + 1)
          (runOps fuel emptyM ops0) v)) ops1)
        (runOps fuel emptyM ops0).atoms.length).value
        = (atomAt (createAtomP (fuel1 + 1) (runOps fuel emptyM ops0) v)
          (runOps fuel emptyM ops0).atoms.length).value := hval
      _ = v := by rw [hat]
  · calc (atomAt (runOps fuel2 (drain fuel1 (createAtomP (fuel1 + 1)
          (runOps fuel emptyM ops0) v)) ops1)
        (runOps fuel emptyM ops0).atoms.length).passes
        = (atomAt (createAtomP (fuel1 + 1) (runOps fuel emptyM ops0) v)
          (runOps fuel emptyM ops0).atoms.length).passes := hpas
      _ = 1 := by rw [hat]

/-- C8: `cloneAtom(A)` produces a new independent primitive atom `B` seeded
with `A`'s current value at clone time; afterwards a write to `A` (with its
event-loop drain) leaves `B`'s value unchanged, and a write to the fresh
`B` leaves every other atom's value — in particular `A`'s — unchanged. -/
theorem claim8_clone_independence (fuel fuel1 fuel2 fuel3 : Nat) (ops : List Op)
    (a : Nat) (x y : JVal)
    (ha : a < (runOps fuel emptyM ops).atoms.length) :
    ((atomAt (cloneA (fuel1 + 1) (runOps fuel emptyM ops) a)
        (runOps fuel emptyM ops).atoms.length).value
      = (atomAt (runOps fuel emptyM ops) a).value) ∧
    ((atomAt (runOp fuel2 (cloneA (fuel1 + 1) (runOps fuel emptyM ops) a)
        (Op.setOp a x)) (runOps fuel emptyM ops).atoms.length).value
      = (atomAt (cloneA (fuel1 + 1) (runOps fuel emptyM ops) a)
        (runOps fuel emptyM ops).atoms.length).value) ∧
    (∀ j, j ≠ (runOps fuel emptyM ops).atoms.length →
      (atomAt (setA fuel3 (cloneA (fuel1 + 1) (runOps fuel emptyM ops) a)
          (runOps fuel emptyM ops).atoms.length y) j).value
        = (atomAt (cloneA (fuel1 + 1) (runOps fuel emptyM ops) a) j).value) := by
  have hg : GInv (runOps fuel emptyM ops) := ginv_runOps fuel ops emptyM ginv_empty
  have hcr : cloneA (fuel1 + 1) (runOps fuel emptyM ops) a =
      { (runOps fuel emptyM ops) with atoms := (runOps fuel emptyM ops).atoms ++
        [⟨(atomAt (runOps fuel emptyM ops) a).value, [], [], none, 1⟩] } :=
    createAtomP_eq fuel1 (runOps fuel emptyM ops) (atomAt (runOps fuel emptyM ops) a).value
  have hat : atomAt (cloneA (fuel1 + 1) (runOps fuel emptyM ops) a)
      (runOps fuel emptyM ops).atoms.length =
      ⟨(atomAt (runOps fuel emptyM ops) a).value, [], [], none, 1⟩ := by
    rw [hcr]
    exact atomAt_append_self _ _
  refine ⟨by rw [hat], ?_, ?_⟩
  · have hprot : Prot (runOps fuel emptyM ops).atoms.length
        (cloneA (fuel1 + 1) (runOps fuel emptyM ops) a) := by
      rw [hcr]
      exact prot_fresh _ _ rfl hg.1
    have hop : writesTo (runOps fuel emptyM ops).atoms.length (Op.setOp a x) = false := by
      show (a == (runOps fuel emptyM ops).atoms.length) = false
      exact beq_eq_false_iff_ne.mpr (Nat.ne_of_lt ha)
    have hrun := prot_runOp (runOps fuel emptyM ops).atoms.length fuel2 _
      (Op.setOp a x) hop hprot
    exact congrArg (fun q : JVal × Nat × Option Deriv × List Nat => q.1) hrun.2
  · intro j hj
    have hlen : (runOps fuel emptyM ops).atoms.length <
        (cloneA (fuel1 + 1) (runOps fuel emptyM ops) a).atoms.length := by
      rw [hcr]
      simp
    exact setA_isolated fuel3 _ _ j y hlen (by rw [hat]) (by rw [hat]) hj

/-! ## Witnesses -/

theorem claim1_witness :
    drain (2 + 1) (setA (2 + 1 + 1)
        (linkedPD (JVal.num 1) (JVal.num 1) (JVal.num 1) [] [5] 1 1) 0 (JVal.num 2)) =
      ⟨[⟨JVal.num 2, [Cb.depCb 1 0], [], none, 2⟩,
        ⟨JVal.num 2, [5].map Cb.recorder, [0], some ⟨DExp.getD 0, false⟩, 2⟩],
       [JVal.num 2], [] ++ [5].map (fun k => (k, JVal.num 2)), [], []⟩ ∧
    drain (2 + 1) (setA (2 + 1 + 1)
        (linkedPD (JVal.num 1) (JVal.num 1) (JVal.num 1) [] [5] 1 1) 0 (JVal.num 1)) =
      ⟨[⟨JVal.num 1, [Cb.depCb 1 0], [], none, 2⟩,
        ⟨JVal.num 1, [5].map Cb.recorder, [0], some ⟨DExp.getD 0, false⟩, 1⟩],
       [JVal.num 1], [], [], []⟩ :=
  ⟨(claim1_dependency_equality_gate 2 (JVal.num 1) (JVal.num 1) (JVal.num 1) (JVal.num 2)
      [] [5] 1 1).1 (by decide),
   (claim1_dependency_equality_gate 2 (JVal.num 1) (JVal.num 1) (JVal.num 1) (JVal.num 1)
      [] [5] 1 1).2 rfl⟩

theorem claim2_witness :
    (setA (2 + 1) w2m 0 (JVal.num 7)).log =
      w2m.log ++ [1, 2].map (fun k => (k, JVal.num 7)) ∧
    (atomAt (setA (2 + 1) w2m 0 (JVal.num 7)) 0).value = JVal.num 7 ∧
    ∀ k ∈ [1, 2], (([1, 2].map (fun j => (j, JVal.num 7))).filter
      (fun p => p.1 == k)).length = 1 :=
  claim2_primitive_notify_all 2 w2m 0 [1, 2] (JVal.num 7) (by decide) (by decide)
    (by decide) (by decide)

theorem claim3_witness :
    subscribeA (subscribeA w2m 0 (Cb.recorder 7)) 0 (Cb.recorder 7)
      = subscribeA w2m 0 (Cb.recorder 7) ∧
    (atomAt (unsubscribeA (subscribeA (subscribeA w2m 0 (Cb.recorder 7)) 0 (Cb.recorder 7))
      0 (Cb.recorder 7)) 0).subs = (atomAt w2m 0).subs :=
  claim3_single_registration w2m 0 (Cb.recorder 7) (by decide) (by decide)

theorem claim4_witness :
    ((atomAt (createAtomP (3 + 1) (runOps 4 emptyM [Op.createP (JVal.num 9)]) (JVal.num 3))
        (runOps 4 emptyM [Op.createP (JVal.num 9)]).atoms.length).value = JVal.num 3 ∧
     (atomAt (createAtomP (3 + 1) (runOps 4 emptyM [Op.createP (JVal.num 9)]) (JVal.num 3))
        (runOps 4 emptyM [Op.createP (JVal.num 9)]).atoms.length).passes = 1) ∧
    ((atomAt (runOps 4 (drain 3 (createAtomP (3 + 1)
          (runOps 4 emptyM [Op.createP (JVal.num 9)]) (JVal.num 3)))
          [Op.subOp 1 0, Op.setOp 0 (JVal.num 5)])
        (runOps 4 emptyM [Op.createP (JVal.num 9)]).atoms.length).value = JVal.num 3 ∧
     (atomAt (runOps 4 (drain 3 (createAtomP (3 + 1)
          (runOps 4 emptyM [Op.createP (JVal.num 9)]) (JVal.num 3)))
          [Op.subOp 1 0, Op.setOp 0 (JVal.num 5)])
        (runOps 4 emptyM [Op.createP (JVal.num 9)]).atoms.length).passes = 1) :=
  claim4_primitive_construction 4 3 4 [Op.createP (JVal.num 9)]
    [Op.subOp 1 0, Op.setOp 0 (JVal.num 5)] (JVal.num 3) (by decide)

theorem claim5_witness :
    (atomAt (computeValue (2 + 1) w5m 1) 1).value = (atomAt w5m 1).value ∧
    (computeValue (2 + 1) w5m 1).log = w5m.log :=
  ⟨(claim5_suspension_window 2 w5m 1 (DExp.getD 0) (by decide) (by decide)).1 1,
   (claim5_suspension_window 2 w5m 1 (DExp.getD 0) (by decide) (by decide)).2.1⟩

theorem claim6_witness :
    (atomAt (computeValue (2 + 1) w6m 1) 1).value = (atomAt w6m 1).value ∧
    (computeValue (2 + 1) w6m 1).log = w6m.log ∧
    (computeValue (2 + 1) w6m 1).micro = w6m.micro :=
  ⟨(claim6_failed_pass 2 w6m 1 (DExp.failIfNeg (DExp.getD 0)) (by decide) (by decide)
      (by decide)).1 1,
   (claim6_failed_pass 2 w6m 1 (DExp.failIfNeg (DExp.getD 0)) (by decide) (by decide)
      (by decide)).2.1,
   (claim6_failed_pass 2 w6m 1 (DExp.failIfNeg (DExp.getD 0)) (by decide) (by decide)
      (by decide)).2.2⟩

theorem claim8_witness :
    ((atomAt (cloneA (2 + 1) (runOps 2 emptyM [Op.createP (JVal.num 3)]) 0)
        (runOps 2 emptyM [Op.createP (JVal.num 3)]).atoms.length).value
      = (atomAt (runOps 2 emptyM [Op.createP (JVal.num 3)]) 0).value) ∧
    ((atomAt (runOp 2 (cloneA (2 + 1) (runOps 2 emptyM [Op.createP (JVal.num 3)]) 0)
        (Op.setOp 0 (JVal.num 9)))
        (runOps 2 emptyM [Op.createP (JVal.num 3)]).atoms.length).value
      = (atomAt (cloneA (2 + 1) (runOps 2 emptyM [Op.createP (JVal.num 3)]) 0)
        (runOps 2 emptyM [Op.createP (JVal.num 3)]).atoms.length).value) ∧
    ((atomAt (setA 2 (cloneA (2 + 1) (runOps 2 emptyM [Op.createP (JVal.num 3)]) 0)
        (runOps 2 emptyM [Op.createP (JVal.num 3)]).atoms.length (JVal.num 4)) 0).value
      = (atomAt (cloneA (2 + 1) (runOps 2 emptyM [Op.createP (JVal.num 3)]) 0) 0).value) :=
  ⟨(claim8_clone_independence 2 2 2 2 [Op.createP (JVal.num 3)] 0 (JVal.num 9) (JVal.num 4)
      (by decide)).1,
   (claim8_clone_independence 2 2 2 2 [Op.createP (JVal.num 3)] 0 (JVal.num 9) (JVal.num 4)
      (by decide)).2.1,
   (claim8_clone_independence 2 2 2 2 [Op.createP (JVal.num 3)] 0 (JVal.num 9) (JVal.num 4)
      (by decide)).2.2 0 (by decide)⟩

theorem claim9_witness :
    (setA (2 + 1) (unsubscribeA w2m 0 (Cb.recorder 1)) 0 (JVal.num 7)).log =
      w2m.log ++ ([1, 2].erase 1).map (fun j => (j, JVal.num 7)) ∧
    ((1 : Nat), JVal.num 7) ∉ ([1, 2].erase 1).map (fun j => (j, JVal.num 7)) :=
  ⟨(claim9_unsubscribe_frame 2 w2m 0 [1, 2] 1 (JVal.num 7) (by decide) (by decide)
      (by decide) (by decide)).1,
   (claim9_unsubscribe_frame 2 w2m 0 [1, 2] 1 (JVal.num 7) (by decide) (by decide)
      (by decide) (by decide)).2 (JVal.num 7)⟩

theorem claim10_witness :
    (atomAt (setA (2 + 1) w10m 1 (JVal.num 99)) 1).value = JVal.num 99 ∧
    (setA (2 + 1) w10m 1 (JVal.num 99)).micro = [⟨1, JVal.num 12⟩] ∧
    (atomAt (drain (2 + 1) (setA (2 + 1) w10m 1 (JVal.num 99))) 1).value = JVal.num 12 ∧
    (drain (2 + 1) (setA (2 + 1) w10m 1 (JVal.num 99))).log =
      w10m.log ++ [0].map (fun k => (k, JVal.num 12)) :=
  claim10_derived_set_transient 2 2 w10m 1
    (DExp.add (DExp.getD 0) (DExp.lit (JVal.num 10))) [0] (JVal.num 99) (JVal.num 12)
    (by decide) (by decide) (by decide) (by decide) (by decide) (by decide)

end JotaiClone
